import Mathlib

/-!
# Verification of the anim2rbx conversion pipeline

Shallow embedding of the core conversion pipeline of `anim2rbx`
(`src/utils.rs`, `src/converter.rs`, `src/types.rs`) and proofs of the
spec claims about it.

Modelling conventions:
* `f32`/`f64` scalars are modelled as `Rat`; the claims under scrutiny are
  about the algorithmic structure (which keys, which poses, set equality,
  idempotence, monotonicity), not floating-point rounding.
* `BTreeMap` keyed by `OrderedFloat<f64>` is modelled as a sorted,
  duplicate-free association list built by ordered insertion with
  overwrite on an equal key (matching `collect()` on an iterator).
* `BTreeSet` is modelled as a sorted duplicate-free list built by ordered
  insertion.
* `HashSet<String>` membership is modelled by `List.contains` on the pooled
  name list; `HashMap` lookups by association-list lookup.
* glam's `Quat::from_mat3` (quaternion extraction from a 3×3 matrix, an
  external library function computed with square roots) is taken as a
  parameter `fromMat3`; every property proved holds for all values of it.
  glam's `Quat::inverse` on a normalized quaternion is the conjugate,
  which is how the code uses it, so it is modelled as the conjugate.
-/

set_option maxHeartbeats 1000000

namespace Anim2rbx

/-- 3-component vector (`rbx_types::Vector3` / `glam::Vec3` / `russimp::Vector3D`). -/
structure Vec3 where
  x : Rat
  y : Rat
  z : Rat
deriving DecidableEq

/-- Column-basis 3×3 matrix (`rbx_types::Matrix3` / `glam::Mat3`), three basis vectors. -/
structure Mat3 where
  x : Vec3
  y : Vec3
  z : Vec3
deriving DecidableEq

/-- Quaternion (`glam::Quat` / `russimp::animation::Quaternion`). -/
structure Quat where
  x : Rat
  y : Rat
  z : Rat
  w : Rat
deriving DecidableEq

/-- Rigid transform (`rbx_types::CFrame`): translation plus 3×3 rotation basis. -/
structure CFrame where
  position : Vec3
  orientation : Mat3
deriving DecidableEq

/-- `utils.rs::approx_equal_vec3`: componentwise `(a - b).abs() <= epsilon`. -/
def approx_equal_vec3 (a b : Vec3) (epsilon : Rat) : Bool :=
  decide (|a.x - b.x| ≤ epsilon) && decide (|a.y - b.y| ≤ epsilon) &&
    decide (|a.z - b.z| ≤ epsilon)

/-- `utils.rs::approx_equal_matrix3`: componentwise comparison of the three basis vectors. -/
def approx_equal_matrix3 (a b : Mat3) (epsilon : Rat) : Bool :=
  approx_equal_vec3 a.x b.x epsilon && approx_equal_vec3 a.y b.y epsilon &&
    approx_equal_vec3 a.z b.z epsilon

/-- `utils.rs::approx_equal_cframe`: position and orientation both approximately equal. -/
def approx_equal_cframe (a b : CFrame) (epsilon : Rat) : Bool :=
  approx_equal_vec3 a.position b.position epsilon &&
    approx_equal_matrix3 a.orientation b.orientation epsilon

/-- 4×4 affine matrix (`russimp::Matrix4x4`), row-major fields `a1..d4`. -/
structure Mat4 where
  a1 : Rat
  a2 : Rat
  a3 : Rat
  a4 : Rat
  b1 : Rat
  b2 : Rat
  b3 : Rat
  b4 : Rat
  c1 : Rat
  c2 : Rat
  c3 : Rat
  c4 : Rat
  d1 : Rat
  d2 : Rat
  d3 : Rat
  d4 : Rat
deriving DecidableEq

/-- `types.rs::NodeInfo`: rest transform and optional parent bone name. -/
structure NodeInfo where
  rest_transform : Mat4
  parent : Option String
deriving DecidableEq

/-- `types.rs::Pose`: one bone's relative transform at one time. -/
structure Pose where
  name : String
  cframe : CFrame
deriving DecidableEq

/-- `types.rs::Keyframe`: a timestamp and the poses present at it. -/
structure Keyframe where
  time : Rat
  poses : List Pose
deriving DecidableEq

/-- A position key of a channel (`russimp` `VectorKey`): tick time and value. -/
structure VectorKey where
  time : Rat
  value : Vec3
deriving DecidableEq

/-- A rotation key of a channel (`russimp` `QuatKey`): tick time and value. -/
structure QuatKey where
  time : Rat
  value : Quat
deriving DecidableEq

/-- An animation channel (`russimp` `NodeAnim`): a named track with keys. -/
structure NodeAnim where
  name : String
  position_keys : List VectorKey
  rotation_keys : List QuatKey
deriving DecidableEq

/-- An animation clip (`russimp` `Animation`): rate plus channels. -/
structure Animation where
  ticks_per_second : Rat
  channels : List NodeAnim
deriving DecidableEq

/-- A scene node (`russimp::node::Node`): name, local transform, children. -/
inductive Node where
  | mk (name : String) (transformation : Mat4) (children : List Node)

/-- Name of a node. -/
def Node.name : Node → String
  | .mk n _ _ => n

/-- Local rest transform of a node. -/
def Node.transformation : Node → Mat4
  | .mk _ t _ => t

/-- Children of a node. -/
def Node.children : Node → List Node
  | .mk _ _ cs => cs

/-- An imported scene (`russimp::scene::Scene`): animations and root node. -/
structure Scene where
  animations : List Animation
  root : Option Node

/-- Ordered insertion with overwrite on an equal key: one step of collecting
an iterator into a `BTreeMap` (later entries overwrite earlier ones). -/
def mapInsert {α : Type} (k : Rat) (v : α) : List (Rat × α) → List (Rat × α)
  | [] => [(k, v)]
  | (k', v') :: rest =>
    if k < k' then (k, v) :: (k', v') :: rest
    else if k = k' then (k, v) :: rest
    else (k', v') :: mapInsert k v rest

/-- Collect a key-value list into a sorted map (`BTreeMap::from_iter`). -/
def mapFromList {α : Type} (l : List (Rat × α)) : List (Rat × α) :=
  l.foldl (fun m kv => mapInsert kv.1 kv.2 m) []

/-- Lookup in an association list keyed by `Rat` (`BTreeMap::get`). -/
def mapLookup {α : Type} (k : Rat) (m : List (Rat × α)) : Option α :=
  (m.find? (fun kv => decide (kv.1 = k))).map (fun kv => kv.2)

/-- Ordered duplicate-free insertion (`BTreeSet::insert`). -/
def setInsert (t : Rat) : List Rat → List Rat
  | [] => [t]
  | t' :: rest =>
    if t < t' then t :: t' :: rest
    else if t = t' then t' :: rest
    else t' :: setInsert t rest

/-- First-match lookup in a string-keyed association list (`HashMap::get`;
the maps handed to the pipeline have unique keys). -/
def lookupStr {α : Type} (k : String) : List (String × α) → Option α
  | [] => none
  | (k', v) :: rest => if k' = k then some v else lookupStr k rest

/-- `converter.rs::ChannelData`: per-channel lookup maps, times in seconds. -/
structure ChannelData where
  name : String
  position_map : List (Rat × Vec3)
  rotation_map : List (Rat × Quat)

/-- The rate used for a clip: `anim.ticks_per_second` when `> 0.0`, else `24.0`. -/
def effectiveTps (a : Animation) : Rat :=
  if 0 < a.ticks_per_second then a.ticks_per_second else 24

/-- Build one `ChannelData` from a channel: keys mapped to `tick / rate` seconds
and collected into `BTreeMap`s. -/
def buildChannelData (tps : Rat) (c : NodeAnim) : ChannelData :=
  { name := c.name
    position_map := mapFromList (c.position_keys.map (fun k => (k.time / tps, k.value)))
    rotation_map := mapFromList (c.rotation_keys.map (fun k => (k.time / tps, k.value))) }

/-- The `channels_data` vector built by the first loop of
`extract_keyframes_from_scene`, flattened over all animations. -/
def channelsData (scene : Scene) : List ChannelData :=
  scene.animations.flatMap (fun a => a.channels.map (buildChannelData (effectiveTps a)))

/-- Key times of one channel's two maps, as inserted into `all_times`. -/
def channelTimes (c : ChannelData) : List Rat :=
  c.position_map.map (fun kv => kv.1) ++ c.rotation_map.map (fun kv => kv.1)

/-- The `all_times` `BTreeSet`: every key time of every channel map. -/
def allTimes (scene : Scene) : List Rat :=
  (channelsData scene).foldl
    (fun s c => (channelTimes c).foldl (fun s' t => setInsert t s') s) []

/-- Quaternion conjugate. -/
def Quat.conjugate (q : Quat) : Quat := ⟨-q.x, -q.y, -q.z, q.w⟩

/-- glam `Quat::inverse`: for the normalized quaternions this code feeds it,
the conjugate. -/
def Quat.inverse (q : Quat) : Quat := q.conjugate

/-- glam `Quat` Hamilton product `a * b`. -/
def Quat.mul (a b : Quat) : Quat :=
  { x := a.w * b.x + a.x * b.w + a.y * b.z - a.z * b.y
    y := a.w * b.y - a.x * b.z + a.y * b.w + a.z * b.x
    z := a.w * b.z + a.x * b.y - a.y * b.x + a.z * b.w
    w := a.w * b.w - a.x * b.x - a.y * b.y - a.z * b.z }

/-- glam `Mat3::from_quat`: rotation matrix of a unit quaternion. -/
def mat3FromQuat (q : Quat) : Mat3 :=
  { x := ⟨1 - (q.y * (q.y + q.y) + q.z * (q.z + q.z)),
         q.x * (q.y + q.y) + q.w * (q.z + q.z),
         q.x * (q.z + q.z) - q.w * (q.y + q.y)⟩
    y := ⟨q.x * (q.y + q.y) - q.w * (q.z + q.z),
         1 - (q.x * (q.x + q.x) + q.z * (q.z + q.z)),
         q.y * (q.z + q.z) + q.w * (q.x + q.x)⟩
    z := ⟨q.x * (q.z + q.z) + q.w * (q.y + q.y),
         q.y * (q.z + q.z) - q.w * (q.x + q.x),
         1 - (q.x * (q.x + q.x) + q.y * (q.y + q.y))⟩ }

/-- Translation column of a `Matrix4x4`: fields `a4, b4, c4`. -/
def restPos (m : Mat4) : Vec3 := ⟨m.a4, m.b4, m.c4⟩

/-- Top-left 3×3 of a `Matrix4x4` as three column basis vectors. -/
def restRotMat (m : Mat4) : Mat3 :=
  { x := ⟨m.a1, m.b1, m.c1⟩
    y := ⟨m.a2, m.b2, m.c2⟩
    z := ⟨m.a3, m.b3, m.c3⟩ }

/-- The zero vector (`Vec3::ZERO`). -/
def Vec3.zero : Vec3 := ⟨0, 0, 0⟩

/-- The identity quaternion (`Quat::IDENTITY`). -/
def Quat.identity : Quat := ⟨0, 0, 0, 1⟩

/-- Componentwise vector subtraction. -/
def Vec3.sub (a b : Vec3) : Vec3 := ⟨a.x - b.x, a.y - b.y, a.z - b.z⟩

/-- Body of the per-channel loop of `extract_keyframes_from_scene` at one
timestamp: `none` when the channel has neither key at that time (the
`continue`), otherwise the emitted pose.  `fromMat3` stands for glam's
`Quat::from_mat3`. -/
def poseFor (fromMat3 : Mat3 → Quat) (nodeInfos : List (String × NodeInfo))
    (c : ChannelData) (t : Rat) : Option Pose :=
  let posKey := mapLookup t c.position_map
  let rotKey := mapLookup t c.rotation_map
  if posKey.isNone && rotKey.isNone then none
  else
    let pos := (posKey.bind (fun value =>
      match lookupStr c.name nodeInfos with
      | some info => some (Vec3.sub value (restPos info.rest_transform))
      | none => none)).getD Vec3.zero
    let rot := (rotKey.bind (fun value =>
      match lookupStr c.name nodeInfos with
      | some info =>
          some (Quat.mul (Quat.inverse (fromMat3 (restRotMat info.rest_transform))) value)
      | none => none)).getD Quat.identity
    some { name := c.name
           cframe := { position := pos, orientation := mat3FromQuat rot } }

/-- The `poses` vector built for one timestamp. -/
def posesAt (fromMat3 : Mat3 → Quat) (nodeInfos : List (String × NodeInfo))
    (channels : List ChannelData) (t : Rat) : List Pose :=
  channels.filterMap (fun c => poseFor fromMat3 nodeInfos c t)

/-- `converter.rs::extract_keyframes_from_scene`: one keyframe per global
timestamp, kept only when its pose list is non-empty. -/
def extract_keyframes_from_scene (fromMat3 : Mat3 → Quat) (scene : Scene)
    (nodeInfos : List (String × NodeInfo)) : List Keyframe :=
  (allTimes scene).filterMap (fun t =>
    let poses := posesAt fromMat3 nodeInfos (channelsData scene) t
    if poses.isEmpty then none else some { time := t, poses := poses })

/-- The union of converted key times described by the spec: for every clip,
every track and every position or rotation key, the key's tick divided by
the clip's rate, with 24 substituted for a non-positive rate. -/
def specTimes (scene : Scene) : List Rat :=
  scene.animations.flatMap (fun a =>
    let rate := if 0 < a.ticks_per_second then a.ticks_per_second else 24
    a.channels.flatMap (fun c =>
      c.position_keys.map (fun k => k.time / rate) ++
        c.rotation_keys.map (fun k => k.time / rate)))

/-- The per-bone pose list collected by `filter_identical_bone_poses`: for
each keyframe, the first pose carrying the bone's name, if any
(`keyframe.poses.iter().find(...)`). -/
def bonePoses (kfs : List Keyframe) (nm : String) : List CFrame :=
  kfs.filterMap (fun kf =>
    (kf.poses.find? (fun p => p.name == nm)).map (fun p => p.cframe))

/-- The `bone_poses.len() > 1 && all_identical` test of
`filter_identical_bone_poses` on a collected pose list. -/
def allCloseToHead (epsilon : Rat) : List CFrame → Bool
  | [] => false
  | [_] => false
  | first :: second :: rest =>
    (second :: rest).all (fun c => approx_equal_cframe first c epsilon)

/-- Whether `filter_identical_bone_poses` puts a bone into `bones_to_remove`:
more than one collected pose, and every later one approximately equal to the
first. A name with no occurrence is trivially not removed, so pre-collecting
`all_bone_names` is absorbed into this predicate. -/
def shouldRemove (kfs : List Keyframe) (epsilon : Rat) (nm : String) : Bool :=
  allCloseToHead epsilon (bonePoses kfs nm)

/-- `converter.rs::filter_identical_bone_poses`: drop the poses of every
removed bone from every keyframe, then drop keyframes left empty. -/
def filter_identical_bone_poses (kfs : List Keyframe) (epsilon : Rat) : List Keyframe :=
  (kfs.map (fun kf =>
      { kf with poses := kf.poses.filter (fun p => !shouldRemove kfs epsilon p.name) })).filter
    (fun kf => !kf.poses.isEmpty)

mutual
/-- The stream of `transforms.insert` calls `collect_node_bone_infos`
performs, in visit (depth-first) order, oldest first. A proof device:
insertions into the `HashMap` overwrite, so the final table keeps, per
name, only the newest entry of this stream. -/
def collectEntries : Node → Option String → List String → List (String × NodeInfo)
  | .mk nm tr cs, parent, animated =>
    let is_bone := animated.contains nm
    (if is_bone then [(nm, { rest_transform := tr, parent := parent : NodeInfo })] else []) ++
      collectEntriesList cs (if is_bone then some nm else parent) animated

/-- The `for child in node.children` loop, for `collectEntries`. -/
def collectEntriesList : List Node → Option String → List String → List (String × NodeInfo)
  | [], _, _ => []
  | n :: rest, parent, animated =>
    collectEntries n parent animated ++ collectEntriesList rest parent animated
end

mutual
/-- `utils.rs::collect_node_bone_infos`: record the node in the threaded
`transforms` map when its name is an animated channel name, then recurse,
passing the node's own name down as parent only when the node is a bone.
`HashMap::insert` overwrite is modelled by prepending the new entry while
lookups take the first match, the same convention as `pose_refs`. -/
def collect_node_bone_infos : Node → Option String → List String →
    List (String × NodeInfo) → List (String × NodeInfo)
  | .mk nm tr cs, parent, animated, transforms =>
    let is_bone := animated.contains nm
    collectChildren cs (if is_bone then some nm else parent) animated
      (if is_bone then (nm, { rest_transform := tr, parent := parent : NodeInfo }) :: transforms
       else transforms)

/-- The `for child in node.children` loop of `collect_node_bone_infos`,
threading the `transforms` map. -/
def collectChildren : List Node → Option String → List String →
    List (String × NodeInfo) → List (String × NodeInfo)
  | [], _, _, transforms => transforms
  | n :: rest, parent, animated, transforms =>
    collectChildren rest parent animated
      (collect_node_bone_infos n parent animated transforms)
end

/-- The pooled animated channel names of a scene (`animated_channels`). -/
def animatedChannels (scene : Scene) : List String :=
  scene.animations.flatMap (fun a => a.channels.map (fun c => c.name))

/-- `utils.rs::get_bone_infos`: traverse from the root with no parent,
starting from the empty table. -/
def get_bone_infos (scene : Scene) : List (String × NodeInfo) :=
  match scene.root with
  | some root => collect_node_bone_infos root none (animatedChannels scene) []
  | none => []

/-- The node reached from `n` by following the given child indices. -/
def getPath : Node → List Nat → Option Node
  | n, [] => some n
  | n, i :: rest =>
    match n.children.get? i with
    | some c => getPath c rest
    | none => none

/-- The names of the proper ancestors of the node at the given path,
root-first. -/
def ancestorNames : Node → List Nat → List String
  | _, [] => []
  | n, i :: rest =>
    match n.children.get? i with
    | some c => n.name :: ancestorNames c rest
    | none => []

/-- The name of the nearest (deepest) ancestor whose name is an animated
channel name, if any: the last bone among the root-first ancestor names. -/
def nearestBoneAncestor (animated : List String) (names : List String) : Option String :=
  (names.filter (fun nm => animated.contains nm)).getLast?

/-- Threading of the `parent` accumulator over a list of ancestor names:
replaced by each bone name encountered, passed through otherwise. -/
def threadParent (animated : List String) (parent : Option String)
    (names : List String) : Option String :=
  names.foldl (fun acc nm => if animated.contains nm then some nm else acc) parent

/-- A property value on an output instance (`rbx_types::Variant`, restricted
to the variants this program writes). -/
inductive PropValue where
  | float (v : Rat)
  | cf (v : CFrame)
  | enumItem (ty : String) (value : Nat)
deriving DecidableEq

/-- One instance of the output document: reference, class, name, parent
reference and properties. -/
structure DomInst where
  ref : Nat
  className : String
  name : String
  parent : Option Nat
  props : List (String × PropValue)
deriving DecidableEq

/-- The output document (`rbx_dom_weak::WeakDom`): instances in insertion
order plus the next free reference. -/
structure Dom where
  nextRef : Nat
  insts : List DomInst
deriving DecidableEq

/-- `WeakDom::insert`: append an instance under the given parent and hand
back its fresh reference. -/
def domInsert (d : Dom) (parentRef : Nat) (cls nm : String)
    (props : List (String × PropValue)) : Dom × Nat :=
  ({ nextRef := d.nextRef + 1
     insts := d.insts ++ [{ ref := d.nextRef, className := cls, name := nm,
                            parent := some parentRef, props := props }] },
   d.nextRef)

/-- `WeakDom::transfer_within`: re-parent the instance with the given
reference. -/
def domTransferWithin (d : Dom) (childRef parentRef : Nat) : Dom :=
  { d with insts := d.insts.map (fun i =>
      if i.ref = childRef then { i with parent := some parentRef } else i) }

/-- Find an instance by reference. -/
def getInst (d : Dom) (r : Nat) : Option DomInst :=
  d.insts.find? (fun i => i.ref == r)

/-- The properties written on a Pose instance. -/
def poseProps (p : Pose) : List (String × PropValue) :=
  [("CFrame", PropValue.cf p.cframe),
   ("EasingDirection", PropValue.enumItem "EasingDirection" 0),
   ("EasingStyle", PropValue.enumItem "EasingStyle" 0)]

/-- First loop of `create_keyframe_sequence_dom` over one keyframe's poses:
insert every Pose instance under the Keyframe instance, recording
`pose_refs` (prepend, so that first-match lookup sees the latest binding,
matching `HashMap::insert` overwrite). -/
def addPoses (d : Dom) (kfRef : Nat) (poses : List Pose) : Dom × List (String × Nat) :=
  poses.foldl (fun acc pose =>
    let r := domInsert acc.1 kfRef "Pose" pose.name (poseProps pose)
    (r.1, (pose.name, r.2) :: acc.2)) (d, [])

/-- The transfer performed (if any) for one pose in the second loop of
`create_keyframe_sequence_dom`: when the bone has a recorded parent and both
the pose and the parent have a recorded ref, the (child, parent) ref pair to
transfer. -/
def reparentStep (boneInfos : List (String × NodeInfo))
    (poseRefs : List (String × Nat)) (pose : Pose) : Option (Nat × Nat) :=
  match lookupStr pose.name boneInfos with
  | some bi =>
    match bi.parent with
    | some parentName =>
      match lookupStr pose.name poseRefs, lookupStr parentName poseRefs with
      | some childRef, some parentRef => some (childRef, parentRef)
      | some _, none => none
      | none, _ => none
    | none => none
  | none => none

/-- Second loop of `create_keyframe_sequence_dom` over one keyframe's poses:
move each pose whose bone has a recorded parent that also has a pose ref
under that parent's pose instance. -/
def reparentPoses (d : Dom) (boneInfos : List (String × NodeInfo))
    (poseRefs : List (String × Nat)) (poses : List Pose) : Dom :=
  poses.foldl (fun d' pose =>
    match reparentStep boneInfos poseRefs pose with
    | some cp => domTransferWithin d' cp.1 cp.2
    | none => d') d

/-- Body of the keyframe loop of `create_keyframe_sequence_dom`. -/
def addKeyframe (boneInfos : List (String × NodeInfo)) (d : Dom) (kf : Keyframe) : Dom :=
  let r1 := domInsert d 0 "Keyframe" "Keyframe" [("Time", PropValue.float kf.time)]
  let r2 := addPoses r1.1 r1.2 kf.poses
  reparentPoses r2.1 boneInfos r2.2 kf.poses

/-- The fresh `WeakDom` holding only the KeyframeSequence root (reference 0). -/
def initialDom : Dom :=
  { nextRef := 1
    insts := [{ ref := 0, className := "KeyframeSequence", name := "KeyframeSequence",
                parent := none,
                props := [("Priority", PropValue.enumItem "AnimationPriority" 2)] }] }

/-- `converter.rs::create_keyframe_sequence_dom`. -/
def create_keyframe_sequence_dom (kfs : List Keyframe)
    (boneInfos : List (String × NodeInfo)) : Dom :=
  kfs.foldl (addKeyframe boneInfos) initialDom

/-- The Pose instances created for a pose list, with consecutive refs
starting at `base`, all initially parented to the Keyframe ref. -/
def posesInsts (base kfRef : Nat) : List Pose → List DomInst
  | [] => []
  | p :: rest =>
    { ref := base, className := "Pose", name := p.name, parent := some kfRef,
      props := poseProps p } :: posesInsts (base + 1) kfRef rest

/-- The `pose_refs` entries accumulated for a pose list (before the reversal
induced by prepending). -/
def poseRefsList (base : Nat) : List Pose → List (String × Nat)
  | [] => []
  | p :: rest => (p.name, base) :: poseRefsList (base + 1) rest

/-- The parent ref the last transfer targeting ref `r` assigns, scanning the
pose list (later poses override earlier ones). -/
def transferTargetFor (boneInfos : List (String × NodeInfo))
    (poseRefs : List (String × Nat)) : List Pose → Nat → Option Nat
  | [], _ => none
  | pose :: rest, r =>
    match transferTargetFor boneInfos poseRefs rest r with
    | some t => some t
    | none =>
      match reparentStep boneInfos poseRefs pose with
      | some cp => if cp.1 = r then some cp.2 else none
      | none => none

/-- The parent reference the assembler is expected to give a pose's
instance: the parent bone's pose instance (at `base + index of the parent's
pose`) when the bone has a recorded parent that has a pose in this
keyframe, and the Keyframe instance otherwise. -/
def expectedParentRef (boneInfos : List (String × NodeInfo)) (kf : Keyframe)
    (kfRef base : Nat) (p : Pose) : Nat :=
  match lookupStr p.name boneInfos with
  | some bi =>
    match bi.parent with
    | some pn =>
      match kf.poses.findIdx? (fun q => q.name == pn) with
      | some j => base + j
      | none => kfRef
    | none => kfRef
  | none => kfRef

/-- The Keyframe instance created for one keyframe. -/
def kfInstOf (r : Nat) (kf : Keyframe) : DomInst :=
  { ref := r, className := "Keyframe", name := "Keyframe", parent := some 0,
    props := [("Time", PropValue.float kf.time)] }

/-- Every instance's ref is below the next free ref. -/
def refsBelow (d : Dom) : Prop :=
  ∀ inst ∈ d.insts, inst.ref < d.nextRef

/-- Reference of the Keyframe instance of the `i`-th keyframe when building
starts at `base`. -/
def kfRefFrom (base : Nat) (kfs : List Keyframe) (i : Nat) : Nat :=
  base + (((kfs.take i).map (fun kf => kf.poses.length + 1)).sum)

/-- Reference of the Keyframe instance of the `i`-th keyframe. -/
def kfRefIn (kfs : List Keyframe) (i : Nat) : Nat :=
  kfRefFrom 1 kfs i

/-- Reference of the Pose instance of the `j`-th pose of the `i`-th keyframe. -/
def poseRefIn (kfs : List Keyframe) (i j : Nat) : Nat :=
  kfRefIn kfs i + 1 + j

/-- A pose of the named bone occurs in the keyframe. -/
def appearsIn (nm : String) (kf : Keyframe) : Bool :=
  kf.poses.any (fun p => p.name == nm)

/-- All poses of the named bone across all keyframes, in order. -/
def allPosesOf (kfs : List Keyframe) (nm : String) : List CFrame :=
  kfs.flatMap (fun kf =>
    (kf.poses.filter (fun p => p.name == nm)).map (fun p => p.cframe))

/-- Modelled from the spec (claim C4 wording): the bone appears in more than
one keyframe, and every one of its poses is approximately equal (within ε)
to its pose at its first occurrence. -/
def specRemovalCond (kfs : List Keyframe) (ε : Rat) (nm : String) : Bool :=
  decide (1 < kfs.countP (fun kf => appearsIn nm kf)) &&
    (match (allPosesOf kfs nm).head? with
     | some c₀ => (allPosesOf kfs nm).all (fun c => approx_equal_cframe c₀ c ε)
     | none => true)

/-- Trivial stand-in for `Quat::from_mat3` used in concrete evaluations;
the pipeline theorems hold for every such function. -/
def fmId : Mat3 → Quat := fun _ => ⟨0, 0, 0, 1⟩

/-- The identity 3×3 basis. -/
def idMat3 : Mat3 := ⟨⟨1, 0, 0⟩, ⟨0, 1, 0⟩, ⟨0, 0, 1⟩⟩

/-- A concrete rigid transform at the origin. -/
def cfA : CFrame := ⟨⟨0, 0, 0⟩, idMat3⟩

/-- A concrete rigid transform away from the origin. -/
def cfB : CFrame := ⟨⟨5, 0, 0⟩, idMat3⟩

/-- Concrete keyframe list: bone "B" with the same pose in two keyframes. -/
def wKfs : List Keyframe := [⟨0, [⟨"B", cfA⟩]⟩, ⟨1, [⟨"B", cfA⟩]⟩]

/-- Concrete keyframe list with a duplicated bone name inside one keyframe:
"B" twice (with different poses) at time 0 and once at time 1. -/
def cexKfs : List Keyframe := [⟨0, [⟨"B", cfA⟩, ⟨"B", cfB⟩]⟩, ⟨1, [⟨"B", cfA⟩]⟩]

/-- A concrete clip: one track "Arm" with a single position key at tick 0. -/
def wAnim : Animation :=
  { ticks_per_second := 24
    channels := [{ name := "Arm", position_keys := [⟨0, ⟨1, 2, 3⟩⟩], rotation_keys := [] }] }

/-- A concrete scene with one clip. -/
def wScene : Scene := { animations := [wAnim], root := none }

/-- A concrete scene whose two clips both declare a track named "Arm". -/
def c10Scene : Scene := { animations := [wAnim, wAnim], root := none }

/-- The keyframe the extractor produces from `wScene` with no bone table. -/
def wKf : Keyframe := ⟨0, [⟨"Arm", ⟨Vec3.zero, mat3FromQuat Quat.identity⟩⟩]⟩

/-- The channel data built from `wScene`'s single track. -/
def wCh : ChannelData := ⟨"Arm", [(0, ⟨1, 2, 3⟩)], []⟩

/-- The identity 4×4 matrix. -/
def m4 : Mat4 := ⟨1, 0, 0, 0, 0, 1, 0, 0, 0, 0, 1, 0, 0, 0, 0, 1⟩

/-- A concrete node tree: non-bone root "R", bone "A", non-bone "X", bone
"B" (so the nearest bone ancestor of "B" is "A", skipping "X"). -/
def wTree : Node :=
  .mk "R" m4 [.mk "A" m4 [.mk "X" m4 [.mk "B" m4 []]]]

/-- A concrete scene whose clip declares tracks "A" and "B" over `wTree`. -/
def wTreeScene : Scene :=
  { animations := [{ ticks_per_second := 24, channels := [
      { name := "A", position_keys := [], rotation_keys := [] },
      { name := "B", position_keys := [], rotation_keys := [] }] }]
    root := some wTree }

/-- A rest transform whose translation column is (1, 0, 0). -/
def wRestM : Mat4 := ⟨1, 0, 0, 1, 0, 1, 0, 0, 0, 0, 1, 0, 0, 0, 0, 1⟩

/-- A bone table giving "Arm" the rest transform `wRestM` and no parent. -/
def wInfos : List (String × NodeInfo) := [("Arm", ⟨wRestM, none⟩)]

/-- A bone table where "Child" is parented to "Root". -/
def b9 : List (String × NodeInfo) := [("Child", ⟨m4, some "Root"⟩)]

/-- One keyframe containing a "Root" pose and two "Child" poses. -/
def cexKf9 : Keyframe := ⟨0, [⟨"Root", cfA⟩, ⟨"Child", cfA⟩, ⟨"Child", cfB⟩]⟩

/-- A two-bone keyframe list: "Root" and "Child" both posed at time 0. -/
def kfs9 : List Keyframe := [⟨0, [⟨"Root", cfA⟩, ⟨"Child", cfB⟩]⟩]

theorem approx_equal_vec3_iff (a b : Vec3) (ε : Rat) :
    approx_equal_vec3 a b ε = true ↔
      |a.x - b.x| ≤ ε ∧ |a.y - b.y| ≤ ε ∧ |a.z - b.z| ≤ ε := by
  simp [approx_equal_vec3, and_assoc]

theorem approx_equal_cframe_iff (a b : CFrame) (ε : Rat) :
    approx_equal_cframe a b ε = true ↔
      (|a.position.x - b.position.x| ≤ ε ∧ |a.position.y - b.position.y| ≤ ε ∧
        |a.position.z - b.position.z| ≤ ε) ∧
      (|a.orientation.x.x - b.orientation.x.x| ≤ ε ∧ |a.orientation.x.y - b.orientation.x.y| ≤ ε ∧
        |a.orientation.x.z - b.orientation.x.z| ≤ ε) ∧
      (|a.orientation.y.x - b.orientation.y.x| ≤ ε ∧ |a.orientation.y.y - b.orientation.y.y| ≤ ε ∧
        |a.orientation.y.z - b.orientation.y.z| ≤ ε) ∧
      (|a.orientation.z.x - b.orientation.z.x| ≤ ε ∧ |a.orientation.z.y - b.orientation.z.y| ≤ ε ∧
        |a.orientation.z.z - b.orientation.z.z| ≤ ε) := by
  simp [approx_equal_cframe, approx_equal_matrix3, approx_equal_vec3_iff, and_assoc]

theorem approx_equal_vec3_zero_iff (a b : Vec3) :
    approx_equal_vec3 a b 0 = true ↔ a = b := by
  rw [approx_equal_vec3_iff]
  constructor
  · rintro ⟨hx, hy, hz⟩
    have hx' : a.x = b.x := by have := abs_nonpos_iff.mp hx; linarith
    have hy' : a.y = b.y := by have := abs_nonpos_iff.mp hy; linarith
    have hz' : a.z = b.z := by have := abs_nonpos_iff.mp hz; linarith
    cases a; cases b; simp_all
  · rintro rfl; simp

theorem approx_equal_cframe_zero_iff (a b : CFrame) :
    approx_equal_cframe a b 0 = true ↔ a = b := by
  simp only [approx_equal_cframe, approx_equal_matrix3, Bool.and_eq_true,
    approx_equal_vec3_zero_iff]
  constructor
  · rintro ⟨hp, ⟨hx, hy⟩, hz⟩
    cases a; cases b
    simp_all
    cases ‹Mat3›; cases ‹Mat3›
    simp_all
  · rintro rfl; simp

theorem mem_setInsert (a t : Rat) (l : List Rat) :
    a ∈ setInsert t l ↔ a = t ∨ a ∈ l := by
  induction l with
  | nil => simp [setInsert]
  | cons t' rest ih =>
    by_cases h1 : t < t'
    · simp [setInsert, h1]
    · by_cases h2 : t = t'
      · subst h2
        simp only [setInsert, h1, if_false, if_pos rfl]
        constructor
        · exact Or.inr
        · rintro (rfl | h) <;> simp_all
      · simp only [setInsert, h1, h2, if_false, List.mem_cons, ih]
        tauto

theorem pairwise_setInsert (t : Rat) (l : List Rat) (h : l.Pairwise (· < ·)) :
    (setInsert t l).Pairwise (· < ·) := by
  induction l with
  | nil => simp [setInsert]
  | cons t' rest ih =>
    rw [List.pairwise_cons] at h
    obtain ⟨h1, h2⟩ := h
    by_cases hlt : t < t'
    · simp only [setInsert, hlt, if_true]
      rw [List.pairwise_cons]
      refine ⟨?_, List.pairwise_cons.mpr ⟨h1, h2⟩⟩
      intro a ha
      rcases List.mem_cons.mp ha with rfl | ha'
      · exact hlt
      · exact lt_trans hlt (h1 a ha')
    · by_cases heq : t = t'
      · subst heq
        simp only [setInsert, hlt, if_false, if_pos rfl]
        exact List.pairwise_cons.mpr ⟨h1, h2⟩
      · simp only [setInsert, hlt, heq, if_false]
        rw [List.pairwise_cons]
        refine ⟨?_, ih h2⟩
        intro a ha
        rcases (mem_setInsert a t rest).mp ha with rfl | ha'
        · exact lt_of_le_of_ne (not_lt.mp hlt) (Ne.symm heq)
        · exact h1 a ha'

theorem mem_foldl_setInsert (ts : List Rat) (s : List Rat) (a : Rat) :
    a ∈ ts.foldl (fun s' t => setInsert t s') s ↔ a ∈ ts ∨ a ∈ s := by
  induction ts generalizing s with
  | nil => simp
  | cons t ts ih =>
    simp only [List.foldl_cons, ih, mem_setInsert, List.mem_cons]
    tauto

theorem pairwise_foldl_setInsert (ts : List Rat) (s : List Rat)
    (h : s.Pairwise (· < ·)) :
    (ts.foldl (fun s' t => setInsert t s') s).Pairwise (· < ·) := by
  induction ts generalizing s with
  | nil => exact h
  | cons t ts ih => exact ih _ (pairwise_setInsert t s h)

theorem foldl_channelTimes_flatten (cs : List ChannelData) (s : List Rat) :
    cs.foldl (fun s' c => (channelTimes c).foldl (fun s'' t => setInsert t s'') s') s =
      (cs.flatMap channelTimes).foldl (fun s' t => setInsert t s') s := by
  induction cs generalizing s with
  | nil => simp
  | cons c cs ih => simp [List.foldl_append, ih]

theorem mem_allTimes (scene : Scene) (t : Rat) :
    t ∈ allTimes scene ↔ ∃ c ∈ channelsData scene, t ∈ channelTimes c := by
  rw [allTimes, foldl_channelTimes_flatten, mem_foldl_setInsert]
  simp [List.mem_flatMap]

theorem pairwise_allTimes (scene : Scene) :
    (allTimes scene).Pairwise (· < ·) := by
  rw [allTimes, foldl_channelTimes_flatten]
  exact pairwise_foldl_setInsert _ _ (by simp)

theorem mem_keys_mapInsert {α : Type} (a k : Rat) (v : α) (m : List (Rat × α)) :
    a ∈ (mapInsert k v m).map Prod.fst ↔ a = k ∨ a ∈ m.map Prod.fst := by
  induction m with
  | nil => simp [mapInsert]
  | cons kv rest ih =>
    obtain ⟨k', v'⟩ := kv
    by_cases h1 : k < k'
    · simp [mapInsert, h1]
    · by_cases h2 : k = k'
      · subst h2
        simp only [mapInsert, h1, if_false, if_pos rfl]
        simp
      · simp only [mapInsert, h1, h2, if_false, List.map_cons, List.mem_cons, ih]
        tauto

theorem mem_keys_foldl_mapInsert {α : Type} (l : List (Rat × α))
    (m : List (Rat × α)) (a : Rat) :
    a ∈ (l.foldl (fun m' kv => mapInsert kv.1 kv.2 m') m).map Prod.fst ↔
      a ∈ l.map Prod.fst ∨ a ∈ m.map Prod.fst := by
  induction l generalizing m with
  | nil => simp
  | cons kv rest ih =>
    simp only [List.foldl_cons, ih, mem_keys_mapInsert, List.map_cons, List.mem_cons]
    tauto

theorem mem_keys_mapFromList {α : Type} (l : List (Rat × α)) (a : Rat) :
    a ∈ (mapFromList l).map Prod.fst ↔ a ∈ l.map Prod.fst := by
  rw [mapFromList, mem_keys_foldl_mapInsert]
  simp

theorem mapLookup_eq_none_iff {α : Type} (k : Rat) (m : List (Rat × α)) :
    mapLookup k m = none ↔ k ∉ m.map Prod.fst := by
  simp only [mapLookup, Option.map_eq_none', List.find?_eq_none, decide_eq_true_eq,
    List.mem_map]
  constructor
  · rintro h ⟨kv, hkv, rfl⟩
    exact h kv hkv rfl
  · rintro h kv hkv rfl
    exact h ⟨kv, hkv, rfl⟩

theorem mem_channelTimes_build (tps : Rat) (c : NodeAnim) (t : Rat) :
    t ∈ channelTimes (buildChannelData tps c) ↔
      t ∈ c.position_keys.map (fun k => k.time / tps) ∨
        t ∈ c.rotation_keys.map (fun k => k.time / tps) := by
  simp only [channelTimes, buildChannelData, List.mem_append, mem_keys_mapFromList]
  simp [List.map_map, Function.comp]

theorem mem_channelsData (scene : Scene) (cd : ChannelData) :
    cd ∈ channelsData scene ↔
      ∃ a ∈ scene.animations, ∃ c ∈ a.channels,
        cd = buildChannelData (effectiveTps a) c := by
  simp only [channelsData, List.mem_flatMap, List.mem_map]
  constructor
  · rintro ⟨a, ha, c, hc, rfl⟩
    exact ⟨a, ha, c, hc, rfl⟩
  · rintro ⟨a, ha, c, hc, rfl⟩
    exact ⟨a, ha, c, hc, rfl⟩

theorem mem_allTimes_iff_specTimes (scene : Scene) (t : Rat) :
    t ∈ allTimes scene ↔ t ∈ specTimes scene := by
  rw [mem_allTimes]
  simp only [specTimes, List.mem_flatMap, List.mem_append]
  constructor
  · rintro ⟨cd, hcd, ht⟩
    obtain ⟨a, ha, c, hc, rfl⟩ := (mem_channelsData scene cd).mp hcd
    refine ⟨a, ha, c, hc, ?_⟩
    rw [mem_channelTimes_build] at ht
    simpa [effectiveTps] using ht
  · rintro ⟨a, ha, c, hc, ht⟩
    refine ⟨buildChannelData (effectiveTps a) c,
      (mem_channelsData scene _).mpr ⟨a, ha, c, hc, rfl⟩, ?_⟩
    rw [mem_channelTimes_build]
    simpa [effectiveTps] using ht

theorem poseFor_isSome_of_mem_channelTimes (fm : Mat3 → Quat)
    (infos : List (String × NodeInfo)) (c : ChannelData) (t : Rat)
    (h : t ∈ channelTimes c) : (poseFor fm infos c t).isSome := by
  rw [channelTimes, List.mem_append] at h
  cases hpos : mapLookup t c.position_map with
  | some v => simp [poseFor, hpos]
  | none =>
    cases hrot : mapLookup t c.rotation_map with
    | some v => simp [poseFor, hpos, hrot]
    | none =>
      exfalso
      rw [mapLookup_eq_none_iff] at hpos hrot
      rcases h with h | h
      · exact hpos h
      · exact hrot h

theorem posesAt_ne_nil (fm : Mat3 → Quat) (infos : List (String × NodeInfo))
    (cs : List ChannelData) (t : Rat) (h : ∃ c ∈ cs, t ∈ channelTimes c) :
    posesAt fm infos cs t ≠ [] := by
  obtain ⟨c, hc, ht⟩ := h
  intro hnil
  rw [posesAt, List.filterMap_eq_nil_iff] at hnil
  have := hnil c hc
  have h2 := poseFor_isSome_of_mem_channelTimes fm infos c t ht
  rw [this] at h2
  simp at h2

theorem filterMap_times_of_ne_nil (fm : Mat3 → Quat)
    (infos : List (String × NodeInfo)) (cs : List ChannelData) (l : List Rat)
    (h : ∀ t ∈ l, posesAt fm infos cs t ≠ []) :
    (l.filterMap (fun t =>
      let poses := posesAt fm infos cs t
      if poses.isEmpty then none else some { time := t, poses := poses : Keyframe })).map
        Keyframe.time = l := by
  induction l with
  | nil => simp
  | cons t rest ih =>
    have hne : (posesAt fm infos cs t).isEmpty = false := by
      rw [List.isEmpty_eq_false]
      exact h t (List.mem_cons_self t rest)
    rw [List.filterMap_cons]
    simp only [hne, Bool.false_eq_true, if_false, List.map_cons]
    rw [ih (fun t' ht' => h t' (List.mem_cons_of_mem t ht'))]

theorem extract_times_eq_allTimes (fm : Mat3 → Quat) (scene : Scene)
    (infos : List (String × NodeInfo)) :
    (extract_keyframes_from_scene fm scene infos).map Keyframe.time = allTimes scene := by
  rw [extract_keyframes_from_scene]
  exact filterMap_times_of_ne_nil fm infos (channelsData scene) (allTimes scene)
    (fun t ht => posesAt_ne_nil fm infos _ t ((mem_allTimes scene t).mp ht))

/-- C1: the list of keyframe times produced by
`extract_keyframes_from_scene` is strictly sorted (so duplicate-free) and a
time occurs in it exactly when it is `tick / rate` for some position or
rotation key of some track of some clip, where the rate is the clip's
ticks-per-second when strictly positive and 24 otherwise. -/
theorem c1_keyframe_times (fm : Mat3 → Quat) (scene : Scene)
    (infos : List (String × NodeInfo)) :
    ((extract_keyframes_from_scene fm scene infos).map Keyframe.time).Pairwise (· < ·) ∧
      ∀ t : Rat,
        t ∈ (extract_keyframes_from_scene fm scene infos).map Keyframe.time ↔
          t ∈ specTimes scene := by
  rw [extract_times_eq_allTimes]
  exact ⟨pairwise_allTimes scene, fun t => mem_allTimes_iff_specTimes scene t⟩

/-- C2: `approx_equal_cframe` returns true iff every component of the
translation and every component of the three rotation basis vectors of the
two transforms differ in absolute value by at most ε (inclusive), and with
ε = 0 it returns true iff the transforms are componentwise equal. It is a
plain Lean function, hence total and side-effect free. -/
theorem c2_approx_equal_cframe_spec :
    (∀ (a b : CFrame) (ε : Rat),
      approx_equal_cframe a b ε = true ↔
        (|a.position.x - b.position.x| ≤ ε ∧ |a.position.y - b.position.y| ≤ ε ∧
          |a.position.z - b.position.z| ≤ ε) ∧
        (|a.orientation.x.x - b.orientation.x.x| ≤ ε ∧
          |a.orientation.x.y - b.orientation.x.y| ≤ ε ∧
          |a.orientation.x.z - b.orientation.x.z| ≤ ε) ∧
        (|a.orientation.y.x - b.orientation.y.x| ≤ ε ∧
          |a.orientation.y.y - b.orientation.y.y| ≤ ε ∧
          |a.orientation.y.z - b.orientation.y.z| ≤ ε) ∧
        (|a.orientation.z.x - b.orientation.z.x| ≤ ε ∧
          |a.orientation.z.y - b.orientation.z.y| ≤ ε ∧
          |a.orientation.z.z - b.orientation.z.z| ≤ ε)) ∧
    (∀ a b : CFrame, approx_equal_cframe a b 0 = true ↔ a = b) :=
  ⟨approx_equal_cframe_iff, approx_equal_cframe_zero_iff⟩

theorem find?_filter_of_imp {α : Type} (p q : α → Bool) (l : List α)
    (h : ∀ x, p x = true → q x = true) :
    (l.filter q).find? p = l.find? p := by
  induction l with
  | nil => rfl
  | cons a l ih =>
    cases hq : q a with
    | true =>
      rw [List.filter_cons_of_pos hq]
      cases hp : p a with
      | true => rw [List.find?_cons_of_pos _ hp, List.find?_cons_of_pos _ hp]
      | false =>
        rw [List.find?_cons_of_neg _ (by simp [hp]), List.find?_cons_of_neg _ (by simp [hp]), ih]
    | false =>
      have hp : p a = false := by
        cases hpa : p a
        · rfl
        · rw [h a hpa] at hq; exact absurd hq (by simp)
      rw [List.filter_cons_of_neg (by simp [hq]), ih, List.find?_cons_of_neg _ (by simp [hp])]

theorem find?_filter_none {α : Type} (p q : α → Bool) (l : List α)
    (h : ∀ x, p x = true → q x = false) :
    (l.filter q).find? p = none := by
  induction l with
  | nil => rfl
  | cons a l ih =>
    cases hq : q a with
    | true =>
      have hp : p a = false := by
        cases hpa : p a
        · rfl
        · rw [h a hpa] at hq; exact absurd hq (by simp)
      rw [List.filter_cons_of_pos hq, List.find?_cons_of_neg _ (by simp [hp]), ih]
    | false => rw [List.filter_cons_of_neg (by simp [hq]), ih]

theorem filterMap_filter_of_none {α β : Type} (f : α → Option β) (g : α → Bool)
    (l : List α) (h : ∀ x, g x = false → f x = none) :
    (l.filter g).filterMap f = l.filterMap f := by
  induction l with
  | nil => rfl
  | cons a l ih =>
    cases hg : g a with
    | true => rw [List.filter_cons_of_pos hg, List.filterMap_cons, List.filterMap_cons, ih]
    | false =>
      rw [List.filter_cons_of_neg (by simp [hg]), List.filterMap_cons, h a hg, ih]

theorem filterMap_congr_mem {α β : Type} (f g : α → Option β) (l : List α)
    (h : ∀ x ∈ l, f x = g x) : l.filterMap f = l.filterMap g := by
  induction l with
  | nil => rfl
  | cons a l ih =>
    rw [List.filterMap_cons, List.filterMap_cons, h a (List.mem_cons_self a l),
      ih (fun x hx => h x (List.mem_cons_of_mem a hx))]

theorem map_eq_self_of {α : Type} (f : α → α) (l : List α)
    (h : ∀ x ∈ l, f x = x) : l.map f = l := by
  induction l with
  | nil => rfl
  | cons a l ih =>
    rw [List.map_cons, h a (List.mem_cons_self a l),
      ih (fun x hx => h x (List.mem_cons_of_mem a hx))]

theorem bonePoses_filter (kfs : List Keyframe) (ε : Rat) (nm : String) :
    bonePoses (filter_identical_bone_poses kfs ε) nm =
      if shouldRemove kfs ε nm then [] else bonePoses kfs nm := by
  rw [filter_identical_bone_poses, bonePoses,
    filterMap_filter_of_none _ _ _ (fun kf hkf => by
      have : kf.poses = [] := List.isEmpty_iff.mp (by
        cases hb : kf.poses.isEmpty
        · rw [hb] at hkf; exact absurd hkf (by simp)
        · rfl)
      rw [this]; rfl),
    List.filterMap_map]
  cases h : shouldRemove kfs ε nm with
  | true =>
    simp only [if_true]
    apply List.filterMap_eq_nil_iff.mpr
    intro kf _
    rw [Function.comp_apply]
    have : ((kf.poses.filter (fun p => !shouldRemove kfs ε p.name)).find?
        (fun p => p.name == nm)) = none := by
      apply find?_filter_none
      intro p hp
      have : p.name = nm := by simpa using hp
      rw [this, h]; rfl
    rw [this]; rfl
  | false =>
    simp only [Bool.false_eq_true, if_false, bonePoses]
    apply filterMap_congr_mem
    intro kf _
    rw [Function.comp_apply]
    have : ((kf.poses.filter (fun p => !shouldRemove kfs ε p.name)).find?
        (fun p => p.name == nm)) = kf.poses.find? (fun p => p.name == nm) := by
      apply find?_filter_of_imp
      intro p hp
      have : p.name = nm := by simpa using hp
      rw [this, h]; rfl
    rw [this]

theorem shouldRemove_filter (kfs : List Keyframe) (ε : Rat) (nm : String) :
    shouldRemove (filter_identical_bone_poses kfs ε) ε nm = false := by
  rw [shouldRemove, bonePoses_filter]
  cases h : shouldRemove kfs ε nm with
  | true => rfl
  | false =>
    simp only [Bool.false_eq_true, if_false]
    exact h

theorem mem_filter_identical_nonempty (kfs : List Keyframe) (ε : Rat)
    (kf : Keyframe) (h : kf ∈ filter_identical_bone_poses kfs ε) :
    kf.poses ≠ [] := by
  rw [filter_identical_bone_poses] at h
  have := (List.mem_filter.mp h).2
  intro hnil
  rw [hnil] at this
  exact absurd this (by simp)

/-- C5: the pose simplifier is idempotent: applying it twice with the same
ε gives the same keyframe list as applying it once. -/
theorem c5_filter_idempotent (kfs : List Keyframe) (ε : Rat) :
    filter_identical_bone_poses (filter_identical_bone_poses kfs ε) ε =
      filter_identical_bone_poses kfs ε := by
  conv_lhs => rw [filter_identical_bone_poses]
  rw [map_eq_self_of _ _ (fun kf _ => by
    have : kf.poses.filter
        (fun p => !shouldRemove (filter_identical_bone_poses kfs ε) ε p.name) = kf.poses :=
      List.filter_eq_self.mpr (fun p _ => by rw [shouldRemove_filter]; rfl)
    rw [this])]
  exact List.filter_eq_self.mpr (fun kf hkf => by
    have := mem_filter_identical_nonempty kfs ε kf hkf
    simpa using this)

theorem approx_equal_cframe_mono (a b : CFrame) (ε₁ ε₂ : Rat) (h : ε₁ ≤ ε₂)
    (ha : approx_equal_cframe a b ε₁ = true) : approx_equal_cframe a b ε₂ = true := by
  rw [approx_equal_cframe_iff] at ha ⊢
  obtain ⟨⟨h1, h2, h3⟩, ⟨h4, h5, h6⟩, ⟨h7, h8, h9⟩, ⟨h10, h11, h12⟩⟩ := ha
  exact ⟨⟨h1.trans h, h2.trans h, h3.trans h⟩, ⟨h4.trans h, h5.trans h, h6.trans h⟩,
    ⟨h7.trans h, h8.trans h, h9.trans h⟩, ⟨h10.trans h, h11.trans h, h12.trans h⟩⟩

theorem allCloseToHead_mono (ε₁ ε₂ : Rat) (h : ε₁ ≤ ε₂) (l : List CFrame)
    (ha : allCloseToHead ε₁ l = true) : allCloseToHead ε₂ l = true := by
  match l with
  | [] => exact ha
  | [_] => exact ha
  | first :: second :: rest =>
    rw [allCloseToHead, List.all_eq_true] at ha ⊢
    intro c hc
    exact approx_equal_cframe_mono _ _ _ _ h (ha c hc)

/-- C6: the simplifier is monotone in ε: for ε₁ ≤ ε₂, every bone removed at
tolerance ε₁ is also removed at tolerance ε₂ on the same input, so the set
of removed bones at ε₁ is a subset of the set at ε₂ and widening ε never
decreases the number of bones removed. -/
theorem c6_shouldRemove_mono (kfs : List Keyframe) (ε₁ ε₂ : Rat) (h : ε₁ ≤ ε₂)
    (nm : String) (hr : shouldRemove kfs ε₁ nm = true) :
    shouldRemove kfs ε₂ nm = true :=
  allCloseToHead_mono ε₁ ε₂ h _ hr

/-- Witness for C6 at a concrete input: "B" has identical poses in the two
keyframes of `wKfs`, so it is removed at tolerance 0, hence also at 1. -/
theorem c6_witness : shouldRemove wKfs 1 "B" = true :=
  c6_shouldRemove_mono wKfs 0 1 (by norm_num) "B" (by
    have h1 : bonePoses wKfs "B" = [cfA, cfA] := rfl
    rw [shouldRemove, h1]
    norm_num [allCloseToHead, approx_equal_cframe, approx_equal_matrix3, approx_equal_vec3,
      cfA, idMat3])

/-- C7: every keyframe the extractor outputs has a non-empty pose list, and
every keyframe surviving the simplifier has a non-empty pose list. -/
theorem c7_keyframes_nonempty (fm : Mat3 → Quat) (scene : Scene)
    (infos : List (String × NodeInfo)) :
    (∀ kf ∈ extract_keyframes_from_scene fm scene infos, kf.poses ≠ []) ∧
      ∀ (kfs : List Keyframe) (ε : Rat),
        ∀ kf ∈ filter_identical_bone_poses kfs ε, kf.poses ≠ [] := by
  constructor
  · intro kf hkf
    rw [extract_keyframes_from_scene] at hkf
    obtain ⟨t, _, hf⟩ := List.mem_filterMap.mp hkf
    cases hemp : (posesAt fm infos (channelsData scene) t).isEmpty with
    | true =>
      simp only [hemp, if_true] at hf
      cases hf
    | false =>
      simp only [hemp, Bool.false_eq_true, if_false, Option.some.injEq] at hf
      subst hf
      exact List.isEmpty_eq_false.mp hemp
  · intro kfs ε kf hkf
    exact mem_filter_identical_nonempty kfs ε kf hkf

theorem extract_wScene_eq : extract_keyframes_from_scene fmId wScene [] = [wKf] := by
  norm_num [extract_keyframes_from_scene, wScene, wAnim, allTimes, channelsData,
    buildChannelData, effectiveTps, channelTimes, mapFromList, mapInsert, setInsert,
    posesAt, poseFor, mapLookup, List.find?, wKf, fmId, Vec3.zero, Quat.identity,
    mat3FromQuat, List.foldl, List.filterMap, lookupStr, Option.getD, Option.bind]

theorem filter_wKf_eq : filter_identical_bone_poses [wKf] 0 = [wKf] := rfl

/-- Witness for C7 at a concrete input: the single keyframe extracted from
`wScene` is in the output and non-empty, and it survives the simplifier at
tolerance 0 and is non-empty there too. -/
theorem c7_witness :
    wKf ∈ extract_keyframes_from_scene fmId wScene [] ∧ wKf.poses ≠ [] ∧
      wKf ∈ filter_identical_bone_poses [wKf] 0 ∧ wKf.poses ≠ [] :=
  ⟨by rw [extract_wScene_eq]; exact List.mem_singleton.mpr rfl,
   (c7_keyframes_nonempty fmId wScene []).1 wKf
     (by rw [extract_wScene_eq]; exact List.mem_singleton.mpr rfl),
   by rw [filter_wKf_eq]; exact List.mem_singleton.mpr rfl,
   (c7_keyframes_nonempty fmId wScene []).2 [wKf] 0 wKf
     (by rw [filter_wKf_eq]; exact List.mem_singleton.mpr rfl)⟩

theorem poseFor_name (fm : Mat3 → Quat) (infos : List (String × NodeInfo))
    (c : ChannelData) (t : Rat) (p : Pose) (h : poseFor fm infos c t = some p) :
    p.name = c.name := by
  rw [poseFor] at h
  by_cases hc : ((mapLookup t c.position_map).isNone && (mapLookup t c.rotation_map).isNone) = true
  · rw [if_pos hc] at h; cases h
  · rw [if_neg hc] at h
    cases h
    rfl

theorem posesAt_names_sublist (fm : Mat3 → Quat) (infos : List (String × NodeInfo))
    (cs : List ChannelData) (t : Rat) :
    ((posesAt fm infos cs t).map Pose.name).Sublist (cs.map ChannelData.name) := by
  induction cs with
  | nil => simp [posesAt]
  | cons c rest ih =>
    rw [posesAt, List.filterMap_cons]
    cases hp : poseFor fm infos c t with
    | none => exact (ih : _).cons _
    | some p =>
      rw [List.map_cons, poseFor_name fm infos c t p hp]
      exact (ih : _).cons₂ _

theorem channelsData_names (scene : Scene) :
    (channelsData scene).map ChannelData.name = animatedChannels scene := by
  rw [channelsData, animatedChannels, List.map_flatMap]
  congr 1
  funext a
  rw [List.map_map]
  rfl

/-- C10 counterexample: in `c10Scene` two clips declare a track named
"Arm"; the extractor then emits a keyframe in which the bone name "Arm"
appears twice, so the claim fails as stated. -/
theorem c10_counterexample :
    ∃ kf ∈ extract_keyframes_from_scene fmId c10Scene [],
      ¬ (kf.poses.map Pose.name).Nodup := by
  have he : extract_keyframes_from_scene fmId c10Scene [] =
      [⟨0, [⟨"Arm", ⟨Vec3.zero, mat3FromQuat Quat.identity⟩⟩,
            ⟨"Arm", ⟨Vec3.zero, mat3FromQuat Quat.identity⟩⟩]⟩] := by
    norm_num [extract_keyframes_from_scene, c10Scene, wAnim, allTimes, channelsData,
      buildChannelData, effectiveTps, channelTimes, mapFromList, mapInsert, setInsert,
      posesAt, poseFor, mapLookup, List.find?, fmId, Vec3.zero, Quat.identity,
      mat3FromQuat, List.foldl, List.filterMap, lookupStr, Option.getD, Option.bind,
      Option.isNone, List.isEmpty]
  rw [he]
  refine ⟨_, List.mem_singleton.mpr rfl, ?_⟩
  decide

/-- C10 (amended): provided the track names declared across all of the
scene's clips are pairwise distinct, every keyframe produced by the
extractor contains each bone name at most once. -/
theorem c10_names_nodup (fm : Mat3 → Quat) (scene : Scene)
    (infos : List (String × NodeInfo)) (h : (animatedChannels scene).Nodup) :
    ∀ kf ∈ extract_keyframes_from_scene fm scene infos,
      (kf.poses.map Pose.name).Nodup := by
  intro kf hkf
  rw [extract_keyframes_from_scene] at hkf
  obtain ⟨t, _, hf⟩ := List.mem_filterMap.mp hkf
  cases hemp : (posesAt fm infos (channelsData scene) t).isEmpty with
  | true =>
    simp only [hemp, if_true] at hf
    cases hf
  | false =>
    simp only [hemp, Bool.false_eq_true, if_false, Option.some.injEq] at hf
    subst hf
    have hsub := posesAt_names_sublist fm infos (channelsData scene) t
    rw [channelsData_names] at hsub
    exact h.sublist hsub

/-- Witness for C10 (amended) at a concrete input: `wScene` declares the
single track name "Arm", and its one extracted keyframe has no duplicate
name. -/
theorem c10_witness :
    (animatedChannels wScene).Nodup ∧ (wKf.poses.map Pose.name).Nodup :=
  ⟨by decide, c10_names_nodup fmId wScene [] (by decide) wKf
    (by rw [extract_wScene_eq]; exact List.mem_singleton.mpr rfl)⟩

theorem approx_equal_cframe_refl (a : CFrame) (ε : Rat) (hε : 0 ≤ ε) :
    approx_equal_cframe a a ε = true := by
  rw [approx_equal_cframe_iff]
  simp [hε]

theorem filter_name_eq_find? (poses : List Pose) (nm : String)
    (h : (poses.map Pose.name).Nodup) :
    (poses.filter (fun p => p.name == nm)).map (fun p => p.cframe) =
      (match poses.find? (fun p => p.name == nm) with
       | some p => [p.cframe]
       | none => []) := by
  induction poses with
  | nil => rfl
  | cons p rest ih =>
    rw [List.map_cons, List.nodup_cons] at h
    cases hp : (p.name == nm) with
    | true =>
      have hnm : p.name = nm := by simpa using hp
      rw [List.filter_cons_of_pos (p := fun (q : Pose) => q.name == nm) hp,
        List.find?_cons_of_pos (p := fun (q : Pose) => q.name == nm) _ hp, List.map_cons]
      have hnil : rest.filter (fun q => q.name == nm) = [] := by
        rw [List.filter_eq_nil_iff]
        intro q hq hbeq
        have hq' : q.name = nm := by simpa using hbeq
        exact h.1 (hnm ▸ hq' ▸ List.mem_map_of_mem Pose.name hq)
      rw [hnil]
      rfl
    | false =>
      rw [List.filter_cons_of_neg (p := fun (q : Pose) => q.name == nm) (by simp [hp]),
        List.find?_cons_of_neg (p := fun (q : Pose) => q.name == nm) _ (by simp [hp])]
      exact ih h.2

theorem bonePoses_eq_allPosesOf (kfs : List Keyframe) (nm : String)
    (h : ∀ kf ∈ kfs, (kf.poses.map Pose.name).Nodup) :
    bonePoses kfs nm = allPosesOf kfs nm := by
  induction kfs with
  | nil => rfl
  | cons kf rest ih =>
    rw [bonePoses, List.filterMap_cons, allPosesOf, List.flatMap_cons,
      filter_name_eq_find? kf.poses nm (h kf (List.mem_cons_self kf rest))]
    rw [bonePoses, allPosesOf] at ih
    cases hf : kf.poses.find? (fun p => p.name == nm) with
    | none =>
      simpa using ih (fun kf' h' => h kf' (List.mem_cons_of_mem _ h'))
    | some p =>
      simpa using ih (fun kf' h' => h kf' (List.mem_cons_of_mem _ h'))

theorem bonePoses_length_eq_countP (kfs : List Keyframe) (nm : String) :
    (bonePoses kfs nm).length = kfs.countP (fun kf => appearsIn nm kf) := by
  induction kfs with
  | nil => rfl
  | cons kf rest ih =>
    rw [bonePoses, List.filterMap_cons, List.countP_cons]
    rw [bonePoses] at ih
    cases hf : kf.poses.find? (fun p => p.name == nm) with
    | none =>
      have hap : appearsIn nm kf = false := by
        rw [appearsIn]
        rw [List.find?_eq_none] at hf
        simp only [List.any_eq_false]
        exact fun p hp => hf p hp
      simp [hap, ih]
    | some p =>
      have hap : appearsIn nm kf = true := by
        rw [appearsIn, List.any_eq_true]
        have hmem := List.find?_some hf
        exact ⟨p, List.mem_of_find?_eq_some hf, hmem⟩
      simp [hap, ih]

theorem specRemovalCond_eq_shouldRemove (kfs : List Keyframe) (ε : Rat) (nm : String)
    (hC : ∀ kf ∈ kfs, (kf.poses.map Pose.name).Nodup) (hε : 0 ≤ ε) :
    specRemovalCond kfs ε nm = shouldRemove kfs ε nm := by
  rw [specRemovalCond, shouldRemove]
  have hlen : kfs.countP (fun kf => appearsIn nm kf) = (bonePoses kfs nm).length :=
    (bonePoses_length_eq_countP kfs nm).symm
  rw [hlen, bonePoses_eq_allPosesOf kfs nm hC]
  cases hl : allPosesOf kfs nm with
  | nil => rfl
  | cons c rest =>
    cases rest with
    | nil => simp [allCloseToHead]
    | cons c2 r2 =>
      simp only [List.head?_cons, List.length_cons, allCloseToHead, List.all_cons]
      rw [approx_equal_cframe_refl c ε hε]
      simp [Nat.lt_add_of_pos_left]

theorem not_in_output_iff_shouldRemove (kfs : List Keyframe) (ε : Rat) (nm : String)
    (hap : ∃ kf ∈ kfs, ∃ p ∈ kf.poses, p.name = nm) :
    (¬ ∃ kf ∈ filter_identical_bone_poses kfs ε, ∃ p ∈ kf.poses, p.name = nm) ↔
      shouldRemove kfs ε nm = true := by
  constructor
  · intro hno
    by_contra hsr
    have hsr' : shouldRemove kfs ε nm = false := by
      cases hb : shouldRemove kfs ε nm
      · rfl
      · exact absurd hb hsr
    apply hno
    obtain ⟨kf, hkf, p, hp, hpn⟩ := hap
    have hpm : p ∈ kf.poses.filter (fun q => !shouldRemove kfs ε q.name) :=
      List.mem_filter.mpr ⟨hp, by rw [hpn, hsr']; rfl⟩
    refine ⟨{ kf with poses := kf.poses.filter (fun q => !shouldRemove kfs ε q.name) },
      ?_, p, hpm, hpn⟩
    rw [filter_identical_bone_poses]
    apply List.mem_filter.mpr
    refine ⟨List.mem_map_of_mem _ hkf, ?_⟩
    have : kf.poses.filter (fun q => !shouldRemove kfs ε q.name) ≠ [] :=
      List.ne_nil_of_mem hpm
    simpa [List.isEmpty_eq_false]
  · rintro hsr ⟨kf', hkf', p, hp', hpn⟩
    rw [filter_identical_bone_poses] at hkf'
    have hkf'' := (List.mem_filter.mp hkf').1
    obtain ⟨kf, _, hmapped⟩ := List.mem_map.mp hkf''
    rw [← hmapped] at hp'
    have hkeep := (List.mem_filter.mp hp').2
    rw [hpn, hsr] at hkeep
    exact absurd hkeep (by simp)

/-- C4 counterexample: in `cexKfs` the bone "B" appears in two keyframes,
with two poses (`cfA` then `cfB`) in the first keyframe. The code compares
only the first pose per keyframe, finds them all equal at ε = 0, and removes
"B" everywhere — although the spec's condition (every one of its poses equal
to the first occurrence) is false because of `cfB`. -/
theorem c4_counterexample :
    (∃ kf ∈ cexKfs, ∃ p ∈ kf.poses, p.name = "B") ∧
    (¬ ∃ kf ∈ filter_identical_bone_poses cexKfs 0, ∃ p ∈ kf.poses, p.name = "B") ∧
    specRemovalCond cexKfs 0 "B" = false := by
  have hb : bonePoses cexKfs "B" = [cfA, cfA] := rfl
  have hsr : shouldRemove cexKfs 0 "B" = true := by
    rw [shouldRemove, hb]
    norm_num [allCloseToHead, approx_equal_cframe, approx_equal_matrix3, approx_equal_vec3,
      cfA, idMat3]
  have hspec : specRemovalCond cexKfs 0 "B" = false := by
    have ha : allPosesOf cexKfs "B" = [cfA, cfB, cfA] := rfl
    rw [specRemovalCond, ha]
    norm_num [approx_equal_cframe, approx_equal_matrix3, approx_equal_vec3, cfA, cfB, idMat3]
  refine ⟨⟨cexKfs.head (by decide), List.mem_cons_self _ _, ⟨"B", cfA⟩, by decide, rfl⟩,
    ?_, hspec⟩
  exact (not_in_output_iff_shouldRemove cexKfs 0 "B"
    ⟨cexKfs.head (by decide), List.mem_cons_self _ _, ⟨"B", cfA⟩, by decide, rfl⟩).mpr hsr

/-- C4 (amended): for every keyframe list in which each keyframe contains at
most one pose per bone name, and every ε ≥ 0, a bone occurring somewhere in
the input is absent from the simplified output exactly when it appears in
more than one keyframe and every one of its poses is approximately equal
(within ε) to its pose at its first occurrence; and a bone appearing in
exactly one keyframe is always still present. -/
theorem c4_removal_iff (kfs : List Keyframe) (ε : Rat) (hε : 0 ≤ ε)
    (hC : ∀ kf ∈ kfs, (kf.poses.map Pose.name).Nodup) (nm : String)
    (hap : ∃ kf ∈ kfs, ∃ p ∈ kf.poses, p.name = nm) :
    ((¬ ∃ kf ∈ filter_identical_bone_poses kfs ε, ∃ p ∈ kf.poses, p.name = nm) ↔
      specRemovalCond kfs ε nm = true) ∧
    (kfs.countP (fun kf => appearsIn nm kf) = 1 →
      ∃ kf ∈ filter_identical_bone_poses kfs ε, ∃ p ∈ kf.poses, p.name = nm) := by
  constructor
  · rw [specRemovalCond_eq_shouldRemove kfs ε nm hC hε]
    exact not_in_output_iff_shouldRemove kfs ε nm hap
  · intro h1
    by_contra h
    have hsr := (not_in_output_iff_shouldRemove kfs ε nm hap).mp h
    have hl : (bonePoses kfs nm).length = 1 := by
      rw [bonePoses_length_eq_countP]
      exact h1
    rw [shouldRemove] at hsr
    cases hbp : bonePoses kfs nm with
    | nil => rw [hbp] at hl; simp at hl
    | cons c rest =>
      cases rest with
      | nil => rw [hbp] at hsr; simp [allCloseToHead] at hsr
      | cons c2 r2 => rw [hbp] at hl; simp at hl

/-- Witness for C4 (amended) at a concrete input: in `wKfs` the bone "B"
appears in two keyframes with identical poses, so at ε = 0 it is removed
from the output. -/
theorem c4_witness :
    ¬ ∃ kf ∈ filter_identical_bone_poses wKfs 0, ∃ p ∈ kf.poses, p.name = "B" :=
  (c4_removal_iff wKfs 0 (le_refl 0) (by decide) "B"
    ⟨⟨0, [⟨"B", cfA⟩]⟩, List.mem_cons_self _ _, ⟨"B", cfA⟩,
      List.mem_cons_self _ _, rfl⟩).1.mpr (by
    have ha : allPosesOf wKfs "B" = [cfA, cfA] := rfl
    have hc : wKfs.countP (fun kf => appearsIn "B" kf) = 2 := rfl
    rw [specRemovalCond, ha, hc]
    norm_num [approx_equal_cframe, approx_equal_matrix3, approx_equal_vec3, cfA, idMat3])

theorem keyframe_mem_extract (fm : Mat3 → Quat) (scene : Scene)
    (infos : List (String × NodeInfo)) (t : Rat) (ht : t ∈ allTimes scene) :
    ({ time := t, poses := posesAt fm infos (channelsData scene) t : Keyframe }) ∈
      extract_keyframes_from_scene fm scene infos := by
  rw [extract_keyframes_from_scene]
  apply List.mem_filterMap.mpr
  refine ⟨t, ht, ?_⟩
  have hne : (posesAt fm infos (channelsData scene) t).isEmpty = false := by
    rw [List.isEmpty_eq_false]
    exact posesAt_ne_nil fm infos _ t ((mem_allTimes scene t).mp ht)
  simp only [hne, Bool.false_eq_true, if_false]

theorem poseFor_none (fm : Mat3 → Quat) (infos : List (String × NodeInfo))
    (c : ChannelData) (t : Rat)
    (h1 : mapLookup t c.position_map = none) (h2 : mapLookup t c.rotation_map = none) :
    poseFor fm infos c t = none := by
  rw [poseFor, h1, h2]
  rfl

theorem poseFor_mem_posesAt (fm : Mat3 → Quat) (infos : List (String × NodeInfo))
    (cs : List ChannelData) (t : Rat) (c : ChannelData) (p : Pose)
    (hc : c ∈ cs) (hp : poseFor fm infos c t = some p) :
    p ∈ posesAt fm infos cs t := by
  rw [posesAt]
  exact List.mem_filterMap.mpr ⟨c, hc, hp⟩

theorem poseFor_position_some (fm : Mat3 → Quat) (infos : List (String × NodeInfo))
    (c : ChannelData) (t : Rat) (p : Pose) (v : Vec3) (info : NodeInfo)
    (hp : poseFor fm infos c t = some p)
    (hv : mapLookup t c.position_map = some v)
    (hinfo : lookupStr c.name infos = some info) :
    p.cframe.position = Vec3.sub v (restPos info.rest_transform) := by
  rw [poseFor, hv, hinfo] at hp
  simp only [Option.isNone_some, Bool.false_and, Bool.false_eq_true, if_false,
    Option.some.injEq] at hp
  rw [← hp]
  simp

theorem poseFor_position_default (fm : Mat3 → Quat) (infos : List (String × NodeInfo))
    (c : ChannelData) (t : Rat) (p : Pose)
    (hp : poseFor fm infos c t = some p)
    (h : mapLookup t c.position_map = none ∨ lookupStr c.name infos = none) :
    p.cframe.position = Vec3.zero := by
  rcases h with h | h
  · rw [poseFor, h] at hp
    cases hrot : mapLookup t c.rotation_map with
    | none => rw [hrot] at hp; simp at hp
    | some q0 =>
      rw [hrot] at hp
      simp only [Option.isNone_some, Option.isNone_none, Bool.true_and, Bool.false_eq_true,
        if_false, Option.some.injEq] at hp
      rw [← hp]
      simp
  · rw [poseFor, h] at hp
    by_cases hcond : ((mapLookup t c.position_map).isNone &&
        (mapLookup t c.rotation_map).isNone) = true
    · rw [if_pos hcond] at hp; cases hp
    · rw [if_neg hcond] at hp
      cases hp
      cases hpos : mapLookup t c.position_map with
      | none => simp
      | some v0 => simp [hpos]

theorem poseFor_rotation_some (fm : Mat3 → Quat) (infos : List (String × NodeInfo))
    (c : ChannelData) (t : Rat) (p : Pose) (q : Quat) (info : NodeInfo)
    (hp : poseFor fm infos c t = some p)
    (hq : mapLookup t c.rotation_map = some q)
    (hinfo : lookupStr c.name infos = some info) :
    p.cframe.orientation = mat3FromQuat (Quat.mul
      (Quat.inverse (fm (restRotMat info.rest_transform))) q) := by
  rw [poseFor, hq, hinfo] at hp
  simp only [Option.isNone_some, Bool.and_false, Bool.false_eq_true, if_false,
    Option.some.injEq] at hp
  rw [← hp]
  simp

theorem poseFor_rotation_default (fm : Mat3 → Quat) (infos : List (String × NodeInfo))
    (c : ChannelData) (t : Rat) (p : Pose)
    (hp : poseFor fm infos c t = some p)
    (h : mapLookup t c.rotation_map = none ∨ lookupStr c.name infos = none) :
    p.cframe.orientation = mat3FromQuat Quat.identity := by
  rcases h with h | h
  · rw [poseFor, h] at hp
    cases hpos : mapLookup t c.position_map with
    | none => rw [hpos] at hp; simp at hp
    | some v0 =>
      rw [hpos] at hp
      simp only [Option.isNone_some, Option.isNone_none, Bool.false_and, Bool.false_eq_true,
        if_false, Option.some.injEq] at hp
      rw [← hp]
      simp
  · rw [poseFor, h] at hp
    by_cases hcond : ((mapLookup t c.position_map).isNone &&
        (mapLookup t c.rotation_map).isNone) = true
    · rw [if_pos hcond] at hp; cases hp
    · rw [if_neg hcond] at hp
      cases hp
      cases hrot : mapLookup t c.rotation_map with
      | none => simp
      | some q0 => simp [hrot]

theorem mat3FromQuat_identity : mat3FromQuat Quat.identity = idMat3 := by
  norm_num [mat3FromQuat, Quat.identity, idMat3]

theorem poseFor_some_of_key (fm : Mat3 → Quat) (infos : List (String × NodeInfo))
    (c : ChannelData) (t : Rat)
    (h : (mapLookup t c.position_map).isSome = true ∨
      (mapLookup t c.rotation_map).isSome = true) :
    ∃ p, poseFor fm infos c t = some p := by
  cases hp : mapLookup t c.position_map with
  | some v =>
    rw [poseFor, hp]
    exact ⟨_, rfl⟩
  | none =>
    cases hr : mapLookup t c.rotation_map with
    | some q =>
      rw [poseFor, hp, hr]
      exact ⟨_, rfl⟩
    | none =>
      rcases h with h | h
      · rw [hp] at h; cases h
      · rw [hr] at h; cases h

/-- C3: for every time t of the global set a keyframe holding exactly the
poses emitted at t is produced, and for every track: no pose is emitted for
it when neither of its maps has a key at exactly t; otherwise (either map
has a key at t) a pose is emitted, and it is in that keyframe's pose list,
named after the track, with translation key − rest translation when both a
position key and a BoneInfo entry exist and zero otherwise, and with
rotation (as the 3×3 basis of) inverse rest rotation composed with the key
rotation when both a rotation key and a BoneInfo entry exist and the
identity rotation otherwise. -/
theorem c3_pose_semantics (fm : Mat3 → Quat) (infos : List (String × NodeInfo))
    (scene : Scene) (t : Rat) (ht : t ∈ allTimes scene) (c : ChannelData)
    (hc : c ∈ channelsData scene) :
    ({ time := t, poses := posesAt fm infos (channelsData scene) t : Keyframe } ∈
        extract_keyframes_from_scene fm scene infos) ∧
    (mapLookup t c.position_map = none ∧ mapLookup t c.rotation_map = none →
      poseFor fm infos c t = none) ∧
    ((mapLookup t c.position_map).isSome = true ∨
        (mapLookup t c.rotation_map).isSome = true →
      ∃ p, poseFor fm infos c t = some p) ∧
    (∀ p : Pose, poseFor fm infos c t = some p →
      p ∈ posesAt fm infos (channelsData scene) t ∧
      p.name = c.name ∧
      (∀ v info, mapLookup t c.position_map = some v →
        lookupStr c.name infos = some info →
        p.cframe.position = Vec3.sub v (restPos info.rest_transform)) ∧
      (mapLookup t c.position_map = none ∨ lookupStr c.name infos = none →
        p.cframe.position = Vec3.zero) ∧
      (∀ q info, mapLookup t c.rotation_map = some q →
        lookupStr c.name infos = some info →
        p.cframe.orientation = mat3FromQuat (Quat.mul
          (Quat.inverse (fm (restRotMat info.rest_transform))) q)) ∧
      (mapLookup t c.rotation_map = none ∨ lookupStr c.name infos = none →
        p.cframe.orientation = mat3FromQuat Quat.identity)) ∧
    mat3FromQuat Quat.identity = idMat3 :=
  ⟨keyframe_mem_extract fm scene infos t ht,
   fun h => poseFor_none fm infos c t h.1 h.2,
   fun h => poseFor_some_of_key fm infos c t h,
   fun p hp =>
     ⟨poseFor_mem_posesAt fm infos _ t c p hc hp,
      poseFor_name fm infos c t p hp,
      fun v info hv hinfo => poseFor_position_some fm infos c t p v info hp hv hinfo,
      fun h => poseFor_position_default fm infos c t p hp h,
      fun q info hq hinfo => poseFor_rotation_some fm infos c t p q info hp hq hinfo,
      fun h => poseFor_rotation_default fm infos c t p hp h⟩,
   mat3FromQuat_identity⟩

theorem allTimes_wScene : allTimes wScene = [0] := by
  norm_num [allTimes, channelsData, wScene, wAnim, buildChannelData, effectiveTps,
    channelTimes, mapFromList, mapInsert, setInsert, List.foldl]

theorem channelsData_wScene : channelsData wScene = [wCh] := by
  norm_num [channelsData, wScene, wAnim, buildChannelData, effectiveTps, mapFromList,
    mapInsert, List.foldl, wCh]

/-- Witness for C3 at a concrete input: over `wScene` with the bone table
`wInfos` (rest translation (1,0,0)), at time 0 the track "Arm" has a
position key, so a pose is emitted; every emitted pose is named "Arm",
carries translation (1,2,3) − (1,0,0) and (the rotation map being empty)
the identity rotation; and the keyframe at time 0 is in the output. -/
theorem c3_witness :
    ({ time := 0, poses := posesAt fmId wInfos (channelsData wScene) 0 : Keyframe } ∈
      extract_keyframes_from_scene fmId wScene wInfos) ∧
    (∃ p, poseFor fmId wInfos wCh 0 = some p) ∧
    (∀ p : Pose, poseFor fmId wInfos wCh 0 = some p →
      p.name = "Arm" ∧
      p.cframe.position = Vec3.sub ⟨1, 2, 3⟩ (restPos wRestM) ∧
      p.cframe.orientation = mat3FromQuat Quat.identity) := by
  have h := c3_pose_semantics fmId wInfos wScene 0
    (by rw [allTimes_wScene]; exact List.mem_singleton.mpr rfl) wCh
    (by rw [channelsData_wScene]; exact List.mem_singleton.mpr rfl)
  refine ⟨h.1, h.2.2.1 (Or.inl rfl), ?_⟩
  intro p hp
  have h4 := h.2.2.2.1 p hp
  exact ⟨h4.2.1,
    h4.2.2.1 ⟨1, 2, 3⟩ ⟨wRestM, none⟩ rfl rfl,
    h4.2.2.2.2.2 (Or.inl rfl)⟩

theorem getLast?_cons_or {α : Type} (a : α) (l : List α) :
    (a :: l).getLast? = l.getLast?.or (some a) := by
  induction l generalizing a with
  | nil => rfl
  | cons b t ih =>
    rw [List.getLast?_cons_cons, ih b]
    cases t.getLast? with
    | none => rfl
    | some x => rfl

theorem threadParent_eq (animated : List String) (names : List String) :
    ∀ acc, threadParent animated acc names =
      ((names.filter (fun nm => animated.contains nm)).getLast?).or acc := by
  induction names with
  | nil => intro acc; rfl
  | cons nm rest ih =>
    intro acc
    rw [threadParent, List.foldl_cons]
    cases hc : animated.contains nm with
    | true =>
      rw [List.filter_cons_of_pos hc, getLast?_cons_or]
      have h2 := ih (some nm)
      rw [threadParent] at h2
      simp only [hc, if_true] at *
      rw [h2]
      cases (rest.filter (fun x => animated.contains x)).getLast? with
      | none => rfl
      | some x => rfl
    | false =>
      rw [List.filter_cons_of_neg (by rw [hc]; simp)]
      have h2 := ih acc
      rw [threadParent] at h2
      simp only [hc, Bool.false_eq_true, if_false] at *
      exact h2

theorem threadParent_none (animated : List String) (names : List String) :
    threadParent animated none names = nearestBoneAncestor animated names := by
  rw [threadParent_eq animated names none, nearestBoneAncestor]
  cases ((names.filter (fun nm => animated.contains nm)).getLast?) with
  | none => rfl
  | some x => rfl

theorem mem_collectEntriesList_of_get? (cs : List Node) (parent : Option String)
    (animated : List String) (i : Nat) (child : Node) (x : String × NodeInfo)
    (hch : cs.get? i = some child)
    (hx : x ∈ collectEntries child parent animated) :
    x ∈ collectEntriesList cs parent animated := by
  induction cs generalizing i with
  | nil => cases hch
  | cons n rest ih =>
    rw [collectEntriesList]
    cases i with
    | zero =>
      rw [List.get?_cons_zero, Option.some.injEq] at hch
      subst hch
      exact List.mem_append_left _ hx
    | succ j =>
      rw [List.get?_cons_succ] at hch
      exact List.mem_append_right _ (ih j hch)

theorem collect_complete (path : List Nat) :
    ∀ (node : Node) (parent : Option String) (animated : List String) (nd : Node),
    getPath node path = some nd → animated.contains nd.name = true →
    (nd.name, { rest_transform := nd.transformation,
                parent := threadParent animated parent (ancestorNames node path) })
      ∈ collectEntries node parent animated := by
  induction path with
  | nil =>
    intro node parent animated nd hg hb
    rw [getPath, Option.some.injEq] at hg
    subst hg
    cases node with
    | mk nm tr cs =>
      rw [collectEntries]
      have hb' : animated.contains nm = true := hb
      simp only [hb', if_true]
      apply List.mem_append_left
      rw [ancestorNames, threadParent, List.foldl_nil]
      exact List.mem_singleton.mpr rfl
  | cons i rest ih =>
    intro node parent animated nd hg hb
    cases node with
    | mk nm tr cs =>
      rw [getPath] at hg
      simp only [Node.children] at hg
      cases hch : cs.get? i with
      | none => rw [hch] at hg; cases hg
      | some child =>
        rw [hch] at hg
        have hanc : ancestorNames (Node.mk nm tr cs) (i :: rest) =
            nm :: ancestorNames child rest := by
          rw [ancestorNames]
          simp only [Node.name, Node.children]
          rw [hch]
        rw [hanc]
        have hthread : threadParent animated parent (nm :: ancestorNames child rest) =
            threadParent animated (if animated.contains nm then some nm else parent)
              (ancestorNames child rest) := by
          rw [threadParent, List.foldl_cons, threadParent]
        rw [hthread, collectEntries]
        apply List.mem_append_right
        exact mem_collectEntriesList_of_get? cs _ animated i child _ hch
          (ih child _ animated nd hg hb)

mutual
theorem collect_sound : ∀ (node : Node) (parent : Option String)
    (animated : List String) (e : String × NodeInfo),
    e ∈ collectEntries node parent animated →
    ∃ path nd, getPath node path = some nd ∧ nd.name = e.1 ∧
      animated.contains nd.name = true ∧
      e.2 = { rest_transform := nd.transformation,
              parent := threadParent animated parent (ancestorNames node path) }
  | .mk nm tr cs, parent, animated, e, he => by
    rw [collectEntries] at he
    rcases List.mem_append.mp he with h1 | h2
    · cases hb : animated.contains nm with
      | false => rw [hb] at h1; simp at h1
      | true =>
        rw [hb] at h1
        simp only [if_true] at h1
        rw [List.mem_singleton] at h1
        subst h1
        exact ⟨[], Node.mk nm tr cs, rfl, rfl, hb, rfl⟩
    · obtain ⟨i, child, hch, path, nd, hg, hn, hbn, he2⟩ :=
        collectEntriesList_sound cs (if animated.contains nm then some nm else parent)
          animated e h2
      refine ⟨i :: path, nd, ?_, hn, hbn, ?_⟩
      · rw [getPath]
        simp only [Node.children]
        rw [hch]
        exact hg
      · have hanc : ancestorNames (Node.mk nm tr cs) (i :: path) =
            nm :: ancestorNames child path := by
          rw [ancestorNames]
          simp only [Node.name, Node.children]
          rw [hch]
        rw [hanc, he2]
        have hthread : threadParent animated parent (nm :: ancestorNames child path) =
            threadParent animated (if animated.contains nm then some nm else parent)
              (ancestorNames child path) := by
          rw [threadParent, List.foldl_cons, threadParent]
        rw [hthread]

theorem collectEntriesList_sound : ∀ (cs : List Node) (parent : Option String)
    (animated : List String) (e : String × NodeInfo),
    e ∈ collectEntriesList cs parent animated →
    ∃ i child, cs.get? i = some child ∧ ∃ path nd, getPath child path = some nd ∧
      nd.name = e.1 ∧ animated.contains nd.name = true ∧
      e.2 = { rest_transform := nd.transformation,
              parent := threadParent animated parent (ancestorNames child path) }
  | [], _, _, e, he => by rw [collectEntriesList] at he; cases he
  | n :: rest, parent, animated, e, he => by
    rw [collectEntriesList] at he
    rcases List.mem_append.mp he with h1 | h2
    · obtain ⟨path, nd, hg, hn, hbn, he2⟩ := collect_sound n parent animated e h1
      exact ⟨0, n, rfl, path, nd, hg, hn, hbn, he2⟩
    · obtain ⟨i, child, hch, rest2⟩ := collectEntriesList_sound rest parent animated e h2
      exact ⟨i + 1, child, by rw [List.get?_cons_succ]; exact hch, rest2⟩
end

theorem lookupStr_eq_none_iff {α : Type} (k : String) (l : List (String × α)) :
    lookupStr k l = none ↔ k ∉ l.map Prod.fst := by
  induction l with
  | nil => simp [lookupStr]
  | cons kv rest ih =>
    obtain ⟨k', v⟩ := kv
    rw [lookupStr]
    by_cases hk : k' = k
    · subst hk
      simp
    · simp only [hk, if_false, ih, List.map_cons, List.mem_cons]
      constructor
      · intro h hmem
        rcases hmem with h2 | h2
        · exact hk h2.symm
        · exact h h2
      · intro h h2
        exact h (Or.inr h2)

theorem lookupStr_mem {α : Type} (k : String) (v : α) (l : List (String × α))
    (h : lookupStr k l = some v) : (k, v) ∈ l := by
  induction l with
  | nil => cases h
  | cons kv rest ih =>
    obtain ⟨k', v'⟩ := kv
    rw [lookupStr] at h
    by_cases hk : k' = k
    · subst hk
      rw [if_pos rfl, Option.some.injEq] at h
      subst h
      exact List.mem_cons_self _ _
    · rw [if_neg hk] at h
      exact List.mem_cons_of_mem _ (ih h)

theorem lookupStr_of_mem_nodup {α : Type} (k : String) (v : α)
    (l : List (String × α)) (h : (l.map Prod.fst).Nodup) (hm : (k, v) ∈ l) :
    lookupStr k l = some v := by
  induction l with
  | nil => cases hm
  | cons kv rest ih =>
    obtain ⟨k', v'⟩ := kv
    rw [List.map_cons, List.nodup_cons] at h
    rcases List.mem_cons.mp hm with h2 | h2
    · rw [Prod.mk.injEq] at h2
      obtain ⟨ha, hb⟩ := h2
      subst ha
      subst hb
      rw [lookupStr, if_pos rfl]
    · rw [lookupStr]
      by_cases hk : k' = k
      · subst hk
        exact absurd (List.mem_map_of_mem Prod.fst h2) h.1
      · rw [if_neg hk]
        exact ih h.2 h2

mutual
theorem collect_eq_rev : ∀ (node : Node) (parent : Option String)
    (animated : List String) (acc : List (String × NodeInfo)),
    collect_node_bone_infos node parent animated acc =
      (collectEntries node parent animated).reverse ++ acc
  | .mk nm tr cs, parent, animated, acc => by
    rw [collect_node_bone_infos, collectEntries]
    cases hb : animated.contains nm with
    | true =>
      simp only [hb, if_true]
      rw [collectChildren_eq_rev cs (some nm) animated
        ((nm, { rest_transform := tr, parent := parent : NodeInfo }) :: acc),
        List.reverse_append]
      simp [List.append_assoc]
    | false =>
      simp only [hb, Bool.false_eq_true, if_false]
      rw [collectChildren_eq_rev cs parent animated acc]
      simp

theorem collectChildren_eq_rev : ∀ (cs : List Node) (parent : Option String)
    (animated : List String) (acc : List (String × NodeInfo)),
    collectChildren cs parent animated acc =
      (collectEntriesList cs parent animated).reverse ++ acc
  | [], _, _, acc => by rw [collectChildren, collectEntriesList]; rfl
  | n :: rest, parent, animated, acc => by
    rw [collectChildren, collectEntriesList,
      collect_eq_rev n parent animated acc,
      collectChildren_eq_rev rest parent animated
        ((collectEntries n parent animated).reverse ++ acc),
      List.reverse_append, List.append_assoc]
end

theorem get_bone_infos_eq_rev (scene : Scene) (root : Node)
    (hr : scene.root = some root) :
    get_bone_infos scene =
      (collectEntries root none (animatedChannels scene)).reverse := by
  rw [get_bone_infos]
  simp only [hr]
  rw [collect_eq_rev root none (animatedChannels scene) []]
  simp

/-- C8: for a scene with a root node, the final bone table (first-match
lookup over the overwrite-ordered list, i.e. `HashMap::get`) (1) holds an
entry under a node's name whenever that name is a pooled track name, (2)
only holds entries that record such a node's rest transform together with
the name of that node's nearest ancestor that is itself a bone (absent when
there is none) — so a name not in the track-name set is never recorded —
and (3) every recorded parent name is itself a bone name; non-bone
ancestors neither appear nor break the ancestor chain. -/
theorem c8_resolver (scene : Scene) (root : Node) (hr : scene.root = some root) :
    (∀ (path : List Nat) (nd : Node), getPath root path = some nd →
      (animatedChannels scene).contains nd.name = true →
      ∃ info, lookupStr nd.name (get_bone_infos scene) = some info) ∧
    (∀ nm info, lookupStr nm (get_bone_infos scene) = some info →
      (animatedChannels scene).contains nm = true ∧
      ∃ path nd, getPath root path = some nd ∧ nd.name = nm ∧
        info = { rest_transform := nd.transformation,
                 parent := nearestBoneAncestor (animatedChannels scene)
                   (ancestorNames root path) }) ∧
    (∀ nm info, lookupStr nm (get_bone_infos scene) = some info →
      ∀ pn, info.parent = some pn →
        (animatedChannels scene).contains pn = true) := by
  have hg := get_bone_infos_eq_rev scene root hr
  refine ⟨?_, ?_, ?_⟩
  · intro path nd hp hb
    have hmem := collect_complete path root none (animatedChannels scene) nd hp hb
    rw [hg]
    cases hl : lookupStr nd.name
        ((collectEntries root none (animatedChannels scene)).reverse) with
    | some info => exact ⟨info, rfl⟩
    | none =>
      exfalso
      rw [lookupStr_eq_none_iff] at hl
      apply hl
      rw [List.map_reverse, List.mem_reverse]
      exact List.mem_map_of_mem Prod.fst hmem
  · intro nm info hl
    rw [hg] at hl
    have hmem := lookupStr_mem _ _ _ hl
    rw [List.mem_reverse] at hmem
    obtain ⟨path, nd, hgp, hn, hbn, he2⟩ :=
      collect_sound root none (animatedChannels scene) (nm, info) hmem
    have he2' : info = { rest_transform := nd.transformation,
                         parent := threadParent (animatedChannels scene) none
                           (ancestorNames root path) } := he2
    have hn' : nd.name = nm := hn
    refine ⟨hn' ▸ hbn, path, nd, hgp, hn, ?_⟩
    rw [he2', threadParent_none]
  · intro nm info hl pn hpn
    rw [hg] at hl
    have hmem := lookupStr_mem _ _ _ hl
    rw [List.mem_reverse] at hmem
    obtain ⟨path, nd, hgp, hn, hbn, he2⟩ :=
      collect_sound root none (animatedChannels scene) (nm, info) hmem
    have he2' : info = { rest_transform := nd.transformation,
                         parent := threadParent (animatedChannels scene) none
                           (ancestorNames root path) } := he2
    rw [he2'] at hpn
    simp only at hpn
    rw [threadParent_none, nearestBoneAncestor] at hpn
    have hm2 := List.mem_of_mem_getLast? hpn
    exact (List.mem_filter.mp hm2).2

/-- Witness for C8 at a concrete input: in `wTreeScene`, the final table
looks up the bone "B" (at path [0,0,0]) to its rest transform with the
nearest bone ancestor "A" as parent, skipping the non-bone node "X". -/
theorem c8_witness :
    lookupStr "B" (get_bone_infos wTreeScene) =
      some { rest_transform := m4, parent := some "A" : NodeInfo } ∧
    ∃ info, lookupStr "B" (get_bone_infos wTreeScene) = some info :=
  ⟨by decide,
   (c8_resolver wTreeScene wTree rfl).1 [0, 0, 0] (Node.mk "B" m4 []) rfl (by decide)⟩

/-- C9 counterexample: in the keyframe `cexKf9` the name "Child" occurs on
two poses. The pose_refs map keeps only the last ref for a name, so the
first "Child" instance (ref 3) is never transferred and stays a direct
child of the Keyframe instance (ref 1) — although its bone has BoneInfo
parent "Root" whose pose instance (ref 2) is present in the same keyframe,
where the claim requires it to be a child of ref 2. -/
theorem c9_counterexample :
    (getInst (create_keyframe_sequence_dom [cexKf9] b9) 3).map
        (fun inst => (inst.className, inst.name, inst.parent)) =
      some ("Pose", "Child", some 1) ∧
    (getInst (create_keyframe_sequence_dom [cexKf9] b9) 2).map
        (fun inst => (inst.className, inst.name, inst.parent)) =
      some ("Pose", "Root", some 1) ∧
    (getInst (create_keyframe_sequence_dom [cexKf9] b9) 1).map
        (fun inst => inst.className) = some "Keyframe" ∧
    lookupStr "Child" b9 =
      some { rest_transform := m4, parent := some "Root" : NodeInfo } ∧
    appearsIn "Root" cexKf9 = true ∧
    cexKf9.poses.get? 1 = some ⟨"Child", cfA⟩ := by
  refine ⟨by decide, by decide, by decide, by decide, by decide, by decide⟩

theorem addPoses_go (kfRef : Nat) (poses : List Pose) :
    ∀ (d : Dom) (refs : List (String × Nat)),
    poses.foldl (fun acc pose =>
      let r := domInsert acc.1 kfRef "Pose" pose.name (poseProps pose)
      (r.1, (pose.name, r.2) :: acc.2)) (d, refs) =
    ({ nextRef := d.nextRef + poses.length,
       insts := d.insts ++ posesInsts d.nextRef kfRef poses },
     (poseRefsList d.nextRef poses).reverse ++ refs) := by
  induction poses with
  | nil =>
    intro d refs
    simp [posesInsts, poseRefsList]
  | cons p rest ih =>
    intro d refs
    rw [List.foldl_cons]
    rw [ih]
    simp only [domInsert, posesInsts, poseRefsList, List.reverse_cons, List.length_cons,
      List.append_assoc, List.singleton_append, Prod.mk.injEq]
    refine ⟨by congr 1; omega, ?_⟩
    trivial

theorem addPoses_eq (d : Dom) (kfRef : Nat) (poses : List Pose) :
    addPoses d kfRef poses =
      ({ nextRef := d.nextRef + poses.length,
         insts := d.insts ++ posesInsts d.nextRef kfRef poses },
       (poseRefsList d.nextRef poses).reverse) := by
  rw [addPoses, addPoses_go]
  simp

theorem find?_map_ref (l : List DomInst) (c pr r : Nat) :
    (l.map (fun i => if i.ref = c then { i with parent := some pr } else i)).find?
        (fun i => i.ref == r) =
      (if c = r then (l.find? (fun i => i.ref == r)).map
          (fun i => { i with parent := some pr })
       else l.find? (fun i => i.ref == r)) := by
  induction l with
  | nil => by_cases h : c = r <;> simp [h]
  | cons a l ih =>
    rw [List.map_cons]
    by_cases hac : a.ref = c
    · by_cases har : a.ref = r
      · have hcr : c = r := hac ▸ har
        rw [if_pos hac, if_pos hcr]
        rw [List.find?_cons_of_pos _ (by simp [har]),
          List.find?_cons_of_pos _ (by simp [har])]
        rfl
      · have hcr : ¬ c = r := fun h => har (h ▸ hac)
        rw [if_pos hac, if_neg hcr]
        rw [List.find?_cons_of_neg _ (by simp [har]),
          List.find?_cons_of_neg _ (by simp [har])]
        rw [ih, if_neg hcr]
    · rw [if_neg hac]
      by_cases har : a.ref = r
      · rw [List.find?_cons_of_pos _ (by simp [har]),
          List.find?_cons_of_pos _ (by simp [har])]
        by_cases hcr : c = r
        · exact absurd (har.trans hcr.symm) hac
        · rw [if_neg hcr]
      · rw [List.find?_cons_of_neg _ (by simp [har]),
          List.find?_cons_of_neg _ (by simp [har])]
        rw [ih]

theorem getInst_transfer (d : Dom) (c pr r : Nat) :
    getInst (domTransferWithin d c pr) r =
      (if c = r then (getInst d r).map (fun i => { i with parent := some pr })
       else getInst d r) := by
  rw [domTransferWithin, getInst, getInst]
  exact find?_map_ref d.insts c pr r

theorem mem_posesInsts_ref (base kfRef : Nat) (poses : List Pose) :
    ∀ inst ∈ posesInsts base kfRef poses,
      base ≤ inst.ref ∧ inst.ref < base + poses.length := by
  induction poses generalizing base with
  | nil => intro inst h; cases h
  | cons p rest ih =>
    intro inst h
    rw [posesInsts] at h
    rcases List.mem_cons.mp h with rfl | h2
    · simp
    · have := ih (base + 1) inst h2
      constructor
      · omega
      · rw [List.length_cons]; omega

theorem find?_posesInsts (base kfRef : Nat) (poses : List Pose) :
    ∀ (j : Nat) (p : Pose), poses.get? j = some p →
    (posesInsts base kfRef poses).find? (fun i => i.ref == base + j) =
      some { ref := base + j, className := "Pose", name := p.name,
             parent := some kfRef, props := poseProps p } := by
  induction poses generalizing base with
  | nil => intro j p hj; cases hj
  | cons q rest ih =>
    intro j p hj
    rw [posesInsts]
    cases j with
    | zero =>
      rw [List.get?_cons_zero, Option.some.injEq] at hj
      subst hj
      rw [List.find?_cons_of_pos _ (by simp)]
      simp
    | succ j' =>
      rw [List.get?_cons_succ] at hj
      rw [List.find?_cons_of_neg _ (by simp)]
      have := ih (base + 1) j' p hj
      rw [show base + 1 + j' = base + (j' + 1) by omega] at this
      exact this

theorem find?_ref_eq_none_of_ge (l : List DomInst) (r bound : Nat)
    (hb : ∀ inst ∈ l, bound ≤ inst.ref) (hr : r < bound) :
    l.find? (fun i => i.ref == r) = none := by
  rw [List.find?_eq_none]
  intro inst hmem
  have := hb inst hmem
  simp only [beq_iff_eq]
  omega

theorem getInst_reparent (b : List (String × NodeInfo)) (prs : List (String × Nat))
    (poses : List Pose) :
    ∀ (d : Dom) (r : Nat),
    getInst (reparentPoses d b prs poses) r =
      (match transferTargetFor b prs poses r with
       | some t => (getInst d r).map (fun i => { i with parent := some t })
       | none => getInst d r) := by
  induction poses with
  | nil => intro d r; rfl
  | cons pose rest ih =>
    intro d r
    rw [reparentPoses, List.foldl_cons]
    have hfold : rest.foldl (fun d' pose =>
        match reparentStep b prs pose with
        | some cp => domTransferWithin d' cp.1 cp.2
        | none => d')
        (match reparentStep b prs pose with
         | some cp => domTransferWithin d cp.1 cp.2
         | none => d) =
        reparentPoses (match reparentStep b prs pose with
         | some cp => domTransferWithin d cp.1 cp.2
         | none => d) b prs rest := rfl
    rw [hfold]
    cases hs : reparentStep b prs pose with
    | none =>
      rw [ih]
      rw [transferTargetFor, hs]
      cases ht : transferTargetFor b prs rest r <;> rfl
    | some cp =>
      rw [ih]
      rw [transferTargetFor, hs]
      cases ht : transferTargetFor b prs rest r with
      | some t =>
        rw [getInst_transfer]
        by_cases hc : cp.1 = r
        · rw [if_pos hc]
          cases getInst d r with
          | none => rfl
          | some i => rfl
        · rw [if_neg hc]
      | none =>
        by_cases hc : cp.1 = r
        · simp [getInst_transfer, hc]
        · simp [getInst_transfer, hc]

theorem transferTargetFor_none_of (b : List (String × NodeInfo))
    (prs : List (String × Nat)) (poses : List Pose) (r : Nat)
    (h : ∀ q ∈ poses, ∀ cp, reparentStep b prs q = some cp → cp.1 ≠ r) :
    transferTargetFor b prs poses r = none := by
  induction poses with
  | nil => rfl
  | cons pose rest ih =>
    rw [transferTargetFor]
    rw [ih (fun q hq cp hcp => h q (List.mem_cons_of_mem pose hq) cp hcp)]
    cases hs : reparentStep b prs pose with
    | none => rfl
    | some cp =>
      have := h pose (List.mem_cons_self pose rest) cp hs
      simp [this]

theorem transferTargetFor_unique (b : List (String × NodeInfo))
    (prs : List (String × Nat)) (poses : List Pose) (r : Nat) :
    ∀ (j : Nat) (p : Pose), poses.get? j = some p →
    (∀ i q, poses.get? i = some q → ∀ cp, reparentStep b prs q = some cp →
      (cp.1 = r ↔ i = j)) →
    transferTargetFor b prs poses r =
      (match reparentStep b prs p with
       | some cp => some cp.2
       | none => none) := by
  induction poses with
  | nil => intro j p hj; cases hj
  | cons q0 rest ih =>
    intro j p hj hhit
    rw [transferTargetFor]
    cases j with
    | zero =>
      rw [List.get?_cons_zero, Option.some.injEq] at hj
      subst hj
      have hrest : transferTargetFor b prs rest r = none := by
        apply transferTargetFor_none_of
        intro q hq cp hcp
        obtain ⟨i, hi⟩ := List.get?_of_mem hq
        have := hhit (i + 1) q (by rw [List.get?_cons_succ]; exact hi) cp hcp
        intro hr
        exact Nat.succ_ne_zero i (this.mp hr)
      rw [hrest]
      cases hs : reparentStep b prs q0 with
      | none => simp [hs]
      | some cp =>
        have hcp := (hhit 0 q0 (by rw [List.get?_cons_zero]) cp hs).mpr rfl
        simp [hs, hcp]
    | succ j' =>
      rw [List.get?_cons_succ] at hj
      have hrest := ih j' p hj (fun i q hi cp hcp => by
        have := hhit (i + 1) q (by rw [List.get?_cons_succ]; exact hi) cp hcp
        constructor
        · intro hr; exact Nat.succ_injective (this.mp hr)
        · intro hij; exact this.mpr (by omega))
      rw [hrest]
      cases hs : reparentStep b prs p with
      | none =>
        cases hq0 : reparentStep b prs q0 with
        | none => simp [hs, hq0]
        | some cp =>
          have hne : ¬ cp.1 = r := by
            have := hhit 0 q0 (by rw [List.get?_cons_zero]) cp hq0
            intro hr
            exact Nat.succ_ne_zero j' ((this.mp hr).symm)
          simp [hs, hq0, hne]
      | some cp => simp [hs]

theorem poseRefsList_keys (base : Nat) (poses : List Pose) :
    (poseRefsList base poses).map Prod.fst = poses.map Pose.name := by
  induction poses generalizing base with
  | nil => rfl
  | cons p rest ih => rw [poseRefsList, List.map_cons, List.map_cons, ih]

theorem mem_poseRefsList (base : Nat) (poses : List Pose) :
    ∀ (j : Nat) (p : Pose), poses.get? j = some p →
      (p.name, base + j) ∈ poseRefsList base poses := by
  induction poses generalizing base with
  | nil => intro j p hj; cases hj
  | cons q rest ih =>
    intro j p hj
    rw [poseRefsList]
    cases j with
    | zero =>
      rw [List.get?_cons_zero, Option.some.injEq] at hj
      subst hj
      rw [Nat.add_zero]
      exact List.mem_cons_self _ _
    | succ j' =>
      rw [List.get?_cons_succ] at hj
      have := ih (base + 1) j' p hj
      rw [show base + 1 + j' = base + (j' + 1) by omega] at this
      exact List.mem_cons_of_mem _ this

theorem lookup_poseRefs_self (base : Nat) (poses : List Pose)
    (hnd : (poses.map Pose.name).Nodup) (j : Nat) (p : Pose)
    (hj : poses.get? j = some p) :
    lookupStr p.name ((poseRefsList base poses).reverse) = some (base + j) := by
  apply lookupStr_of_mem_nodup
  · rw [List.map_reverse, List.nodup_reverse, poseRefsList_keys]
    exact hnd
  · rw [List.mem_reverse]
    exact mem_poseRefsList base poses j p hj

theorem findIdx?_shift (p : Pose → Bool) (poses : List Pose) :
    ∀ s : Nat, poses.findIdx? p s = (poses.findIdx? p 0).map (fun k => s + k) := by
  induction poses with
  | nil => intro s; rfl
  | cons q rest ih =>
    intro s
    rw [List.findIdx?_cons, List.findIdx?_cons]
    by_cases hq : p q
    · rw [if_pos hq, if_pos hq]
      simp
    · rw [if_neg hq, if_neg hq, ih (s + 1), ih 1]
      cases rest.findIdx? p 0 with
      | none => rfl
      | some k => simp [Nat.add_assoc]

theorem findIdx?_zero_some (pn : String) (poses : List Pose) :
    ∀ j : Nat, poses.findIdx? (fun q => q.name == pn) 0 = some j →
      ∃ q, poses.get? j = some q ∧ q.name = pn := by
  induction poses with
  | nil => intro j h; cases h
  | cons q rest ih =>
    intro j h
    rw [List.findIdx?_cons] at h
    by_cases hq : (q.name == pn) = true
    · rw [if_pos hq, Option.some.injEq] at h
      subst h
      exact ⟨q, rfl, by simpa using hq⟩
    · rw [if_neg hq, findIdx?_shift] at h
      cases hr : rest.findIdx? (fun q => q.name == pn) 0 with
      | none => rw [hr] at h; cases h
      | some k =>
        rw [hr, Option.map_some', Option.some.injEq] at h
        subst h
        obtain ⟨q', hq', hn⟩ := ih k hr
        refine ⟨q', ?_, hn⟩
        rw [show 1 + k = k + 1 by omega, List.get?_cons_succ]
        exact hq'

theorem findIdx?_zero_none (pn : String) (poses : List Pose)
    (h : poses.findIdx? (fun q => q.name == pn) 0 = none) :
    pn ∉ poses.map Pose.name := by
  induction poses with
  | nil => simp
  | cons q rest ih =>
    rw [List.findIdx?_cons] at h
    by_cases hq : (q.name == pn) = true
    · rw [if_pos hq] at h; cases h
    · rw [if_neg hq, findIdx?_shift] at h
      cases hr : rest.findIdx? (fun q => q.name == pn) 0 with
      | some k => rw [hr] at h; cases h
      | none =>
        rw [List.map_cons, List.mem_cons]
        rintro (h2 | h2)
        · exact hq (by simp [h2])
        · exact ih hr h2

theorem addKeyframe_eq (b : List (String × NodeInfo)) (d : Dom) (kf : Keyframe) :
    addKeyframe b d kf =
      reparentPoses
        { nextRef := d.nextRef + 1 + kf.poses.length,
          insts := (d.insts ++ [kfInstOf d.nextRef kf]) ++
            posesInsts (d.nextRef + 1) d.nextRef kf.poses }
        b ((poseRefsList (d.nextRef + 1) kf.poses).reverse) kf.poses := by
  rw [addKeyframe]
  simp only [domInsert, addPoses_eq, kfInstOf]

theorem mem_poseRefsList_ge (base : Nat) (poses : List Pose) :
    ∀ x ∈ poseRefsList base poses, base ≤ x.2 := by
  induction poses generalizing base with
  | nil => intro x hx; cases hx
  | cons p rest ih =>
    intro x hx
    rw [poseRefsList] at hx
    rcases List.mem_cons.mp hx with rfl | hx2
    · simp
    · have := ih (base + 1) x hx2
      omega

theorem reparentStep_child (b : List (String × NodeInfo)) (prs : List (String × Nat))
    (q : Pose) (cp : Nat × Nat) (h : reparentStep b prs q = some cp) :
    lookupStr q.name prs = some cp.1 := by
  rw [reparentStep] at h
  cases hlb : lookupStr q.name b with
  | none => simp only [hlb] at h; cases h
  | some bi =>
    simp only [hlb] at h
    cases hbp : bi.parent with
    | none => simp only [hbp] at h; cases h
    | some pn =>
      simp only [hbp] at h
      cases hcr : lookupStr q.name prs with
      | none => simp only [hcr] at h; cases h
      | some cr =>
        simp only [hcr] at h
        cases hpr : lookupStr pn prs with
        | none => simp only [hpr] at h; cases h
        | some pr =>
          simp only [hpr, Option.some.injEq] at h
          rw [← h]

theorem lookup_poseRefs_none (base : Nat) (poses : List Pose) (pn : String)
    (h : pn ∉ poses.map Pose.name) :
    lookupStr pn ((poseRefsList base poses).reverse) = none := by
  rw [lookupStr_eq_none_iff, List.map_reverse, List.mem_reverse, poseRefsList_keys]
  exact h

theorem reparentStep_eq (b : List (String × NodeInfo)) (kf : Keyframe) (base : Nat)
    (hnd : (kf.poses.map Pose.name).Nodup) (j : Nat) (p : Pose)
    (hj : kf.poses.get? j = some p) :
    reparentStep b ((poseRefsList base kf.poses).reverse) p =
      (match lookupStr p.name b with
       | some bi =>
         match bi.parent with
         | some pn =>
           match kf.poses.findIdx? (fun q => q.name == pn) with
           | some j' => some (base + j, base + j')
           | none => none
         | none => none
       | none => none) := by
  rw [reparentStep]
  cases hlb : lookupStr p.name b with
  | none => simp only [hlb]
  | some bi =>
    simp only [hlb]
    cases hbp : bi.parent with
    | none => simp only [hbp]
    | some pn =>
      simp only [hbp, lookup_poseRefs_self base kf.poses hnd j p hj]
      cases hfi : kf.poses.findIdx? (fun q => q.name == pn) with
      | some j' =>
        obtain ⟨q, hq', hn⟩ := findIdx?_zero_some pn kf.poses j' hfi
        have h2 := lookup_poseRefs_self base kf.poses hnd j' q hq'
        rw [hn] at h2
        simp only [h2]
      | none =>
        simp only
          [lookup_poseRefs_none base kf.poses pn (findIdx?_zero_none pn kf.poses hfi)]

theorem addKeyframe_getInst (b : List (String × NodeInfo)) (d : Dom) (kf : Keyframe)
    (hrb : refsBelow d) (hnd : (kf.poses.map Pose.name).Nodup) (j : Nat) (p : Pose)
    (hj : kf.poses.get? j = some p) :
    getInst (addKeyframe b d kf) (d.nextRef + 1 + j) =
      some { ref := d.nextRef + 1 + j, className := "Pose", name := p.name,
             parent := some (expectedParentRef b kf d.nextRef (d.nextRef + 1) p),
             props := poseProps p } := by
  rw [addKeyframe_eq b d kf, getInst_reparent]
  have hbase : getInst
      { nextRef := d.nextRef + 1 + kf.poses.length,
        insts := (d.insts ++ [kfInstOf d.nextRef kf]) ++
          posesInsts (d.nextRef + 1) d.nextRef kf.poses }
      (d.nextRef + 1 + j) =
      some { ref := d.nextRef + 1 + j, className := "Pose", name := p.name,
             parent := some d.nextRef, props := poseProps p } := by
    rw [getInst]
    simp only [List.find?_append]
    have h1 : d.insts.find? (fun i => i.ref == d.nextRef + 1 + j) = none := by
      rw [List.find?_eq_none]
      intro inst hmem
      have := hrb inst hmem
      simp only [beq_iff_eq]
      omega
    have h2 : List.find? (fun i => i.ref == d.nextRef + 1 + j)
        [kfInstOf d.nextRef kf] = none := by
      rw [List.find?_eq_none]
      intro inst hmem
      rw [List.mem_singleton] at hmem
      subst hmem
      simp only [kfInstOf, beq_iff_eq]
      omega
    rw [h1, h2, find?_posesInsts (d.nextRef + 1) d.nextRef kf.poses j p hj]
    rfl
  have hhit : ∀ i q, kf.poses.get? i = some q → ∀ cp,
      reparentStep b ((poseRefsList (d.nextRef + 1) kf.poses).reverse) q = some cp →
      (cp.1 = d.nextRef + 1 + j ↔ i = j) := by
    intro i q hi cp hcp
    have hchild := reparentStep_child b _ q cp hcp
    rw [lookup_poseRefs_self (d.nextRef + 1) kf.poses hnd i q hi,
      Option.some.injEq] at hchild
    rw [← hchild]
    omega
  have htt := transferTargetFor_unique b ((poseRefsList (d.nextRef + 1) kf.poses).reverse)
    kf.poses (d.nextRef + 1 + j) j p hj hhit
  rw [htt, reparentStep_eq b kf (d.nextRef + 1) hnd j p hj, expectedParentRef]
  cases hlb : lookupStr p.name b with
  | none =>
    simp only [hlb]
    rw [hbase]
  | some bi =>
    simp only [hlb]
    cases hbp : bi.parent with
    | none =>
      simp only [hbp]
      rw [hbase]
    | some pn =>
      simp only [hbp]
      cases hfi : kf.poses.findIdx? (fun q => q.name == pn) with
      | none =>
        simp only [hfi]
        rw [hbase]
      | some j' =>
        simp only [hfi]
        rw [hbase]
        rfl

theorem reparentPoses_nextRef (b : List (String × NodeInfo))
    (prs : List (String × Nat)) (poses : List Pose) :
    ∀ d : Dom, (reparentPoses d b prs poses).nextRef = d.nextRef := by
  induction poses with
  | nil => intro d; rfl
  | cons pose rest ih =>
    intro d
    rw [reparentPoses, List.foldl_cons]
    have hre : rest.foldl (fun d' pose =>
        match reparentStep b prs pose with
        | some cp => domTransferWithin d' cp.1 cp.2
        | none => d')
        (match reparentStep b prs pose with
         | some cp => domTransferWithin d cp.1 cp.2
         | none => d) =
        reparentPoses (match reparentStep b prs pose with
         | some cp => domTransferWithin d cp.1 cp.2
         | none => d) b prs rest := rfl
    rw [hre, ih]
    cases reparentStep b prs pose with
    | none => rfl
    | some cp => rfl

theorem reparentPoses_refsBelow (b : List (String × NodeInfo))
    (prs : List (String × Nat)) (poses : List Pose) :
    ∀ d : Dom, refsBelow d → refsBelow (reparentPoses d b prs poses) := by
  induction poses with
  | nil => intro d h; exact h
  | cons pose rest ih =>
    intro d h
    rw [reparentPoses, List.foldl_cons]
    have hre : rest.foldl (fun d' pose =>
        match reparentStep b prs pose with
        | some cp => domTransferWithin d' cp.1 cp.2
        | none => d')
        (match reparentStep b prs pose with
         | some cp => domTransferWithin d cp.1 cp.2
         | none => d) =
        reparentPoses (match reparentStep b prs pose with
         | some cp => domTransferWithin d cp.1 cp.2
         | none => d) b prs rest := rfl
    rw [hre]
    apply ih
    cases reparentStep b prs pose with
    | none => exact h
    | some cp =>
      intro inst hmem
      simp only [domTransferWithin] at hmem
      obtain ⟨i0, hi0, hmap⟩ := List.mem_map.mp hmem
      have := h i0 hi0
      by_cases hc : i0.ref = cp.1
      · rw [if_pos hc] at hmap
        rw [← hmap]
        exact this
      · rw [if_neg hc] at hmap
        rw [← hmap]
        exact this

theorem addKeyframe_nextRef (b : List (String × NodeInfo)) (d : Dom) (kf : Keyframe) :
    (addKeyframe b d kf).nextRef = d.nextRef + 1 + kf.poses.length := by
  rw [addKeyframe_eq, reparentPoses_nextRef]

theorem addKeyframe_refsBelow (b : List (String × NodeInfo)) (d : Dom) (kf : Keyframe)
    (hrb : refsBelow d) : refsBelow (addKeyframe b d kf) := by
  rw [addKeyframe_eq]
  apply reparentPoses_refsBelow
  intro inst hmem
  simp only [List.mem_append] at hmem
  rcases hmem with (hm | hm) | hm
  · have := hrb inst hm
    simp only
    omega
  · rw [List.mem_singleton] at hm
    subst hm
    simp only [kfInstOf]
    omega
  · have := (mem_posesInsts_ref (d.nextRef + 1) d.nextRef kf.poses inst hm).2
    simp only
    omega

theorem addKeyframe_frame (b : List (String × NodeInfo)) (d : Dom) (kf : Keyframe)
    (r : Nat) (hrb : refsBelow d) (hr : r < d.nextRef) :
    getInst (addKeyframe b d kf) r = getInst d r := by
  rw [addKeyframe_eq, getInst_reparent]
  have htt : transferTargetFor b ((poseRefsList (d.nextRef + 1) kf.poses).reverse)
      kf.poses r = none := by
    apply transferTargetFor_none_of
    intro q _ cp hcp
    have hchild := reparentStep_child b _ q cp hcp
    have hmem := lookupStr_mem _ _ _ hchild
    rw [List.mem_reverse] at hmem
    have := mem_poseRefsList_ge (d.nextRef + 1) kf.poses (q.name, cp.1) hmem
    simp only at this
    omega
  rw [htt]
  rw [getInst, getInst]
  simp only [List.find?_append]
  cases hf : d.insts.find? (fun i => i.ref == r) with
  | some inst => rfl
  | none =>
    have h2 : List.find? (fun i => i.ref == r) [kfInstOf d.nextRef kf] = none := by
      rw [List.find?_eq_none]
      intro inst hmem
      rw [List.mem_singleton] at hmem
      subst hmem
      simp only [kfInstOf, beq_iff_eq]
      omega
    have h3 : (posesInsts (d.nextRef + 1) d.nextRef kf.poses).find?
        (fun i => i.ref == r) = none := by
      rw [List.find?_eq_none]
      intro inst hmem
      have := (mem_posesInsts_ref (d.nextRef + 1) d.nextRef kf.poses inst hmem).1
      simp only [beq_iff_eq]
      omega
    rw [h2, h3]
    rfl

theorem foldl_addKeyframe_frame (b : List (String × NodeInfo)) (kfs : List Keyframe) :
    ∀ (d : Dom) (r : Nat), refsBelow d → r < d.nextRef →
    getInst (kfs.foldl (addKeyframe b) d) r = getInst d r := by
  induction kfs with
  | nil => intro d r _ _; rfl
  | cons kf rest ih =>
    intro d r hrb hr
    rw [List.foldl_cons]
    rw [ih (addKeyframe b d kf) r (addKeyframe_refsBelow b d kf hrb)
      (by rw [addKeyframe_nextRef]; omega)]
    exact addKeyframe_frame b d kf r hrb hr

theorem create_go (b : List (String × NodeInfo)) (kfs : List Keyframe) :
    ∀ (d : Dom) (i j : Nat) (kf : Keyframe) (p : Pose),
    (∀ kf' ∈ kfs, (kf'.poses.map Pose.name).Nodup) → refsBelow d →
    kfs.get? i = some kf → kf.poses.get? j = some p →
    getInst (kfs.foldl (addKeyframe b) d) (kfRefFrom d.nextRef kfs i + 1 + j) =
      some { ref := kfRefFrom d.nextRef kfs i + 1 + j, className := "Pose",
             name := p.name,
             parent := some (expectedParentRef b kf (kfRefFrom d.nextRef kfs i)
               (kfRefFrom d.nextRef kfs i + 1) p),
             props := poseProps p } := by
  induction kfs with
  | nil => intro d i j kf p _ _ hi _; cases hi
  | cons kf0 rest ih =>
    intro d i j kf p hC hrb hi hj
    rw [List.foldl_cons]
    cases i with
    | zero =>
      rw [List.get?_cons_zero, Option.some.injEq] at hi
      subst hi
      have hbase : kfRefFrom d.nextRef (kf0 :: rest) 0 = d.nextRef := by
        simp [kfRefFrom]
      rw [hbase]
      have hjlen : j < kf0.poses.length := by
        rw [List.get?_eq_some] at hj
        exact hj.1
      rw [foldl_addKeyframe_frame b rest (addKeyframe b d kf0) _
        (addKeyframe_refsBelow b d kf0 hrb)
        (by rw [addKeyframe_nextRef]; omega)]
      exact addKeyframe_getInst b d kf0 hrb
        (hC kf0 (List.mem_cons_self kf0 rest)) j p hj
    | succ i' =>
      rw [List.get?_cons_succ] at hi
      have hshift : kfRefFrom d.nextRef (kf0 :: rest) (i' + 1) =
          kfRefFrom (addKeyframe b d kf0).nextRef rest i' := by
        rw [addKeyframe_nextRef]
        simp only [kfRefFrom, List.take_succ_cons, List.map_cons, List.sum_cons]
        omega
      rw [hshift]
      exact ih (addKeyframe b d kf0) i' j kf p
        (fun kf' h' => hC kf' (List.mem_cons_of_mem kf0 h'))
        (addKeyframe_refsBelow b d kf0 hrb) hi hj

/-- C9 (amended): for every keyframe list in which each keyframe contains at
most one pose per bone name, each pose's instance in the assembled document
is parented to the parent bone's pose instance when the pose's bone has a
BoneInfo parent that also has a pose in the same keyframe, and directly to
the Keyframe instance otherwise (no BoneInfo, no recorded parent, or parent
bone without a pose there); `expectedParentRef` spells out exactly this case
split, with `kfRefIn kfs i` the Keyframe instance's ref and
`kfRefIn kfs i + 1 + j'` the ref of the pose at index `j'`. -/
theorem c9_assembler (kfs : List Keyframe) (b : List (String × NodeInfo))
    (hC : ∀ kf ∈ kfs, (kf.poses.map Pose.name).Nodup)
    (i j : Nat) (kf : Keyframe) (p : Pose)
    (hi : kfs.get? i = some kf) (hj : kf.poses.get? j = some p) :
    getInst (create_keyframe_sequence_dom kfs b) (poseRefIn kfs i j) =
      some { ref := poseRefIn kfs i j, className := "Pose", name := p.name,
             parent := some (expectedParentRef b kf (kfRefIn kfs i)
               (kfRefIn kfs i + 1) p),
             props := poseProps p } := by
  have hrb : refsBelow initialDom := by
    intro inst hmem
    rw [initialDom] at hmem
    rw [List.mem_singleton] at hmem
    subst hmem
    simp [initialDom]
  have h := create_go b kfs initialDom i j kf p hC hrb hi hj
  rw [create_keyframe_sequence_dom, poseRefIn, kfRefIn]
  exact h

/-- Witness for C9 (amended) at a concrete input: the two-bone keyframe list
`kfs9` ("Root" then "Child", with "Child" parented to "Root" in `b9`) has
its "Child" pose instance parented to the "Root" pose instance. -/
theorem c9_witness :
    getInst (create_keyframe_sequence_dom kfs9 b9) (poseRefIn kfs9 0 1) =
      some { ref := poseRefIn kfs9 0 1, className := "Pose", name := "Child",
             parent := some (expectedParentRef b9 ⟨0, [⟨"Root", cfA⟩, ⟨"Child", cfB⟩]⟩
               (kfRefIn kfs9 0) (kfRefIn kfs9 0 + 1) ⟨"Child", cfB⟩),
             props := poseProps ⟨"Child", cfB⟩ } :=
  c9_assembler kfs9 b9 (by decide) 0 1 ⟨0, [⟨"Root", cfA⟩, ⟨"Child", cfB⟩]⟩
    ⟨"Child", cfB⟩ (by decide) (by decide)

end Anim2rbx
